import Mathlib

/-!
# Verification of the AnestoryAI genealogy-graph core

Shallow embedding of the pure genealogical graph logic of the repository:
the cycle guard (`hasCircularReference`), the relationship classifier
(`calculateRelationship`), the tree builders of the tree view and the studio
view, the statistics aggregator (`calculateStats`), the lifespan histogram
(`getLifespanDistribution`), duplicate detection (`findPotentialDuplicates`)
and the anomaly scanner (`findLocalAnomalies`).

Modelling conventions, matching the TypeScript source:
* `number | null` year fields become `Option Int`; the JavaScript truthiness
  test `if (a.birthYear)` is `truthyYear`, which is false for `none` and for
  year `0` (the number `0` is falsy in JavaScript).
* `string | null` parent references become `Option String`; the truthiness
  test `if (a.fatherId)` is false for `none` and for the empty string.
* `Map.set` built with `ancestors.forEach((a) => map.set(a.id, a))` keeps the
  last record with a given id, hence `lookupLast`; `ancestors.find(...)`
  keeps the first, hence `List.find?`.
* Unbounded loops and recursions of the source are given an explicit fuel
  parameter; `none` (or `.error ()`) means the fuel ran out. Theorems below
  show the chosen fuel bounds never run out, so the fuel-free source
  behaviour is captured exactly.
-/

namespace AnestoryAI

/-- `Gender` from `types.ts`. -/
inductive Gender where
  | Male : Gender
  | Female : Gender
  | Unknown : Gender
deriving DecidableEq, Repr

/-- The `Ancestor` record from `types.ts`: the single Person entity. -/
structure Ancestor where
  id : String
  name : String
  birthYear : Option Int
  deathYear : Option Int
  gender : Gender
  country : Option String
  fatherId : Option String
  motherId : Option String
  notes : String
  dateAdded : Int
deriving DecidableEq, Repr

/-- JavaScript truthiness of a `string | null` value:
`null` and `""` are falsy. -/
def strTruthy : Option String → Bool
  | none => false
  | some s => !s.isEmpty

/-- JavaScript truthiness of a `number | null` year field:
`null` and `0` are falsy. -/
def truthyYear : Option Int → Bool
  | none => false
  | some y => y != 0

/-- Lookup in the `Map` built by `ancestors.forEach((a) => map.set(a.id, a))`
(or `new Map(ancestors.map(a => [a.id, a]))`): the LAST record with the id
wins, because later `set`s overwrite earlier ones. -/
def lookupLast (ancestors : List Ancestor) (personId : String) : Option Ancestor :=
  ancestors.reverse.find? (fun a => a.id == personId)

/-- JavaScript `String.prototype.includes`: substring test (used on the
relationship labels, e.g. `.includes("Sibling")`). -/
def strIncludes (s pat : String) : Bool :=
  s.data.tails.any (fun t => pat.data.isPrefixOf t)

/-! ## Statistics Aggregator (`calculateStats` in the analytics module) -/

/-- The local accumulators of `calculateStats` (`totalLifespan`,
`countWithDates`, `maleCount`, `femaleCount`, `unknownCount`). -/
structure StatsAcc where
  totalLifespan : Int
  countWithDates : Nat
  maleCount : Nat
  femaleCount : Nat
  unknownCount : Nat
deriving DecidableEq, Repr

/-- The lifespan condition of `calculateStats`:
`a.birthYear && a.deathYear && a.deathYear > a.birthYear`
(strictly greater; year `0` is falsy). -/
def statsCountsLifespan (a : Ancestor) : Bool :=
  truthyYear a.birthYear && truthyYear a.deathYear &&
    match a.birthYear, a.deathYear with
    | some b, some d => b < d
    | _, _ => false

/-- One iteration of the `ancestors.forEach` body of `calculateStats`. -/
def statsStep (s : StatsAcc) (a : Ancestor) : StatsAcc :=
  let s1 :=
    match a.gender with
    | Gender.Male => { s with maleCount := s.maleCount + 1 }
    | Gender.Female => { s with femaleCount := s.femaleCount + 1 }
    | Gender.Unknown => { s with unknownCount := s.unknownCount + 1 }
  if statsCountsLifespan a then
    match a.birthYear, a.deathYear with
    | some b, some d =>
        { s1 with totalLifespan := s1.totalLifespan + (d - b),
                  countWithDates := s1.countWithDates + 1 }
    | _, _ => s1
  else s1

/-- Decimal rendering of `(num / den).toFixed(1)` for `num ≥ 0`, modelled by
exact rational arithmetic with round-half-up (JavaScript computes this with
binary floating point; no theorem below depends on this branch). -/
def toFixed1 (num : Int) (den : Nat) : String :=
  let q : Int := (20 * num + den) / (2 * (den : Int))
  toString (q / 10) ++ "." ++ toString (q % 10)

/-- The object returned by `calculateStats`. -/
structure Stats where
  total : Nat
  male : Nat
  female : Nat
  unknown : Nat
  avgLifespan : String
deriving DecidableEq, Repr

/-- `calculateStats` from the analytics module. -/
def calculateStats (ancestors : List Ancestor) : Stats :=
  let s := ancestors.foldl statsStep ⟨0, 0, 0, 0, 0⟩
  { total := ancestors.length
    male := s.maleCount
    female := s.femaleCount
    unknown := s.unknownCount
    avgLifespan :=
      if s.countWithDates > 0 then toFixed1 s.totalLifespan s.countWithDates
      else "N/A" }

/-! ## Lifespan histogram (`getLifespanDistribution`) -/

/-- The lifespan condition of `getLifespanDistribution`:
`a.birthYear && a.deathYear && a.deathYear >= a.birthYear`
(greater OR EQUAL, unlike `calculateStats`; year `0` is falsy). -/
def histCountsLifespan (a : Ancestor) : Bool :=
  truthyYear a.birthYear && truthyYear a.deathYear &&
    match a.birthYear, a.deathYear with
    | some b, some d => b ≤ d
    | _, _ => false

/-- `Math.min(Math.floor(age / 10), 10)` for a non-negative age. -/
def bucketIndex (age : Int) : Nat :=
  min (age / 10).toNat 10

/-- Increment the bucket at the given index (`buckets[index]++`). -/
def bumpAt : List Nat → Nat → List Nat
  | [], _ => []
  | c :: rest, 0 => (c + 1) :: rest
  | c :: rest, Nat.succ i => c :: bumpAt rest i

/-- One iteration of the `ancestors.forEach` body of
`getLifespanDistribution`. -/
def distStep (buckets : List Nat) (a : Ancestor) : List Nat :=
  if histCountsLifespan a then
    match a.birthYear, a.deathYear with
    | some b, some d => bumpAt buckets (bucketIndex (d - b))
    | _, _ => buckets
  else buckets

/-- An element of the array returned by `getLifespanDistribution`. -/
structure LifespanBucket where
  range : String
  count : Nat
  label : String
deriving DecidableEq, Repr

/-- `getLifespanDistribution` from the analytics module: eleven 10-year
buckets (`0-9` … `90-99`, `100+`). -/
def getLifespanDistribution (ancestors : List Ancestor) : List LifespanBucket :=
  let buckets := ancestors.foldl distStep (List.replicate 11 0)
  buckets.enum.map (fun p =>
    { range := if p.1 == 10 then "100+" else toString (p.1 * 10) ++ "-" ++ toString (p.1 * 10 + 9)
      count := p.2
      label := if p.1 == 10 then "100+" else toString (p.1 * 10) ++ "s" })

/-! ## Duplicate detection (`findPotentialDuplicates`) -/

/-- `name.toLowerCase().trim()`: ASCII lower-casing followed by stripping
leading and trailing whitespace, written on the character list so that it is
kernel-computable (`String.toLower`/`String.trim` compute the same values
through non-reducing auxiliaries). -/
def normalizeName (s : String) : String :=
  ⟨(((s.data.map Char.toLower).dropWhile Char.isWhitespace).reverse.dropWhile
      Char.isWhitespace).reverse⟩

/-- The bucket key of `findPotentialDuplicates`:
`` `${a.name.toLowerCase().trim()}-${a.birthYear || '?'}` ``
(a birth year of `0` or `null` renders as `?`). -/
def dupKey (a : Ancestor) : String :=
  normalizeName a.name ++ "-" ++
    (match a.birthYear with
     | some y => if y = 0 then "?" else toString y
     | none => "?")

/-- Insert a record into the bucket of its key, preserving the insertion order
of a JavaScript object with non-index string keys (new keys go to the end, as
`Object.values` later enumerates them). -/
def addToGroups (groups : List (String × List Ancestor)) (key : String)
    (a : Ancestor) : List (String × List Ancestor) :=
  match groups with
  | [] => [(key, [a])]
  | (k, g) :: rest =>
      if k == key then (k, g ++ [a]) :: rest
      else (k, g) :: addToGroups rest key a

/-- The bucket map built by the `ancestors.forEach` of
`findPotentialDuplicates`. -/
def dupGroups (ancestors : List Ancestor) : List (String × List Ancestor) :=
  ancestors.foldl (fun gs a => addToGroups gs (dupKey a) a) []

/-- `findPotentialDuplicates`: bucket by normalized name + birth year, return
only the buckets with more than one entry. -/
def findPotentialDuplicates (ancestors : List Ancestor) : List (List Ancestor) :=
  ((dupGroups ancestors).map Prod.snd).filter (fun g => g.length > 1)

/-! ## Anomaly & Quality Scanner (`findLocalAnomalies`) -/

/-- The anomaly tag (`'Error' | 'Warning'`). -/
inductive AnomalyType where
  | Error : AnomalyType
  | Warning : AnomalyType
deriving DecidableEq, Repr

/-- The `Anomaly` record of the consistency-check module. -/
structure Anomaly where
  id : String
  name : String
  type : AnomalyType
  message : String
deriving DecidableEq, Repr

/-- Checks 1–3 of `findLocalAnomalies` (death before birth, impossible
lifespan, implied deceased without death year), in push order. -/
def dateAnoms (currentYear : Int) (person : Ancestor) : List Anomaly :=
  (if truthyYear person.birthYear && truthyYear person.deathYear then
      match person.birthYear, person.deathYear with
      | some b, some d =>
          if d < b then
            [{ id := person.id, name := person.name, type := AnomalyType.Error,
               message := "Death year (" ++ toString d ++ ") is before birth year ("
                 ++ toString b ++ ")." }]
          else []
      | _, _ => []
    else []) ++
  (if truthyYear person.birthYear && truthyYear person.deathYear then
      match person.birthYear, person.deathYear with
      | some b, some d =>
          if d - b > 120 then
            [{ id := person.id, name := person.name, type := AnomalyType.Warning,
               message := "Recorded lifespan is " ++ toString (d - b)
                 ++ " years, which is highly unusual." }]
          else []
      | _, _ => []
    else []) ++
  (if truthyYear person.birthYear && !truthyYear person.deathYear then
      match person.birthYear with
      | some b =>
          if currentYear - b > 110 then
            [{ id := person.id, name := person.name, type := AnomalyType.Warning,
               message := "Born in " ++ toString b
                 ++ " (110+ years ago) but no death year recorded." }]
          else []
      | none => []
    else [])

/-- Check 4 of `findLocalAnomalies` (father logic): requires a truthy
`fatherId`, a father found in the map, and truthy birth years of both. -/
def fatherAnoms (ancestors : List Ancestor) (person : Ancestor) : List Anomaly :=
  if strTruthy person.fatherId then
    match person.fatherId with
    | some fid =>
        match lookupLast ancestors fid with
        | some father =>
            if truthyYear father.birthYear && truthyYear person.birthYear then
              match father.birthYear, person.birthYear with
              | some fb, some pb =>
                  if fb ≥ pb then
                    [{ id := person.id, name := person.name, type := AnomalyType.Error,
                       message := "Father (" ++ father.name ++ ") born in " ++ toString fb
                         ++ ", same or after child (" ++ toString pb ++ ")." }]
                  else if pb - fb < 12 then
                    [{ id := person.id, name := person.name, type := AnomalyType.Warning,
                       message := "Father (" ++ father.name ++ ") was only "
                         ++ toString (pb - fb) ++ " when child was born." }]
                  else []
              | _, _ => []
            else []
        | none => []
    | none => []
  else []

/-- Check 5 of `findLocalAnomalies` (mother logic): like the father check,
plus the unusually-old branch (`> 65`). -/
def motherAnoms (ancestors : List Ancestor) (person : Ancestor) : List Anomaly :=
  if strTruthy person.motherId then
    match person.motherId with
    | some mid =>
        match lookupLast ancestors mid with
        | some mother =>
            if truthyYear mother.birthYear && truthyYear person.birthYear then
              match mother.birthYear, person.birthYear with
              | some mb, some pb =>
                  if mb ≥ pb then
                    [{ id := person.id, name := person.name, type := AnomalyType.Error,
                       message := "Mother (" ++ mother.name ++ ") born in " ++ toString mb
                         ++ ", same or after child (" ++ toString pb ++ ")." }]
                  else if pb - mb < 12 then
                    [{ id := person.id, name := person.name, type := AnomalyType.Warning,
                       message := "Mother (" ++ mother.name ++ ") was only "
                         ++ toString (pb - mb) ++ " when child was born." }]
                  else if pb - mb > 65 then
                    [{ id := person.id, name := person.name, type := AnomalyType.Warning,
                       message := "Mother (" ++ mother.name ++ ") was " ++ toString (pb - mb)
                         ++ " when child was born (unusually old)." }]
                  else []
              | _, _ => []
            else []
        | none => []
    | none => []
  else []

/-- The anomalies pushed for one person, in the push order of the source
(date checks, then father logic, then mother logic). Every pushed anomaly
carries the scanned person's own `id` and `name`. -/
def personChecks (ancestors : List Ancestor) (currentYear : Int)
    (person : Ancestor) : List Anomaly :=
  dateAnoms currentYear person ++ fatherAnoms ancestors person
    ++ motherAnoms ancestors person

/-- `findLocalAnomalies`: the `ancestors.forEach` accumulating pushes is the
concatenation of the per-person check lists. `currentYear` stands for
`new Date().getFullYear()`. -/
def findLocalAnomalies (ancestors : List Ancestor) (currentYear : Int) : List Anomaly :=
  ancestors.flatMap (personChecks ancestors currentYear)

/-! ## Tree Builder (`TreeVisualization.tsx`, both the tree view and the
studio view) -/

/-- `!a.fatherId && !a.motherId` (a person with no truthy parent link). -/
def parentless (a : Ancestor) : Bool :=
  !strTruthy a.fatherId && !strTruthy a.motherId

/-- `ancestors.filter(a => !a.fatherId && !a.motherId)`. -/
def potentialRoots (ancestors : List Ancestor) : List Ancestor :=
  ancestors.filter parentless

/-- `a.birthYear || 9999`: the sort key of the earliest-born fallback
(missing or zero birth years count as 9999). -/
def sortKey (a : Ancestor) : Int :=
  match a.birthYear with
  | some y => if y = 0 then 9999 else y
  | none => 9999

/-- `[...ancestors].sort((a, b) => (a.birthYear || 9999) - (b.birthYear || 9999))`:
JavaScript `Array.prototype.sort` is a stable sort, modelled by `mergeSort`. -/
def sortedByAge (ancestors : List Ancestor) : List Ancestor :=
  ancestors.mergeSort (fun a b => decide (sortKey a ≤ sortKey b))

/-- Root selection of the tree view (`TreeVisualization.tsx` lines 52–54):
`potentialRoots[0] || sortedByAge[0]`. -/
def selectRootTreeView (ancestors : List Ancestor) : Option Ancestor :=
  match (potentialRoots ancestors).head? with
  | some r => some r
  | none => (sortedByAge ancestors).head?

/-- Root selection of the studio view (second component in
`TreeVisualization.tsx`, lines 620–622):
`roots.length > 0 ? roots[0] : ancestors[0]`. -/
def selectRootStudio (ancestors : List Ancestor) : Option Ancestor :=
  match (potentialRoots ancestors).head? with
  | some r => some r
  | none => ancestors.head?

/-- The node objects produced by `buildTree` (person data plus the list of
recursively built children). -/
inductive TreeNode where
  | node (person : Ancestor) (children : List TreeNode)

/-- `ancestors.filter(a => a.fatherId === personId || a.motherId === personId)`:
the children attached under a node (raw equality, no truthiness filter). -/
def childrenRecords (ancestors : List Ancestor) (personId : String) : List Ancestor :=
  ancestors.filter (fun a => a.fatherId == some personId || a.motherId == some personId)

/-- `.map(child => buildTree(child.id)).filter(Boolean)`: build each child,
drop the `null`s, propagate fuel exhaustion. -/
def buildChildren (f : String → Except Unit (Option TreeNode)) :
    List Ancestor → Except Unit (List TreeNode)
  | [] => Except.ok []
  | c :: rest =>
      match f c.id with
      | Except.error e => Except.error e
      | Except.ok none => buildChildren f rest
      | Except.ok (some t) =>
          match buildChildren f rest with
          | Except.error e => Except.error e
          | Except.ok ts => Except.ok (t :: ts)

/-- The recursive `buildTree` of `TreeVisualization.tsx` with an explicit
fuel parameter: `.error ()` models the unbounded recursion running past the
fuel, `.ok none` models the source returning `null` when the id is not found
(first match wins, as `Array.prototype.find` does). -/
def buildTreeF (ancestors : List Ancestor) : Nat → String → Except Unit (Option TreeNode)
  | 0, _ => Except.error ()
  | fuel + 1, personId =>
      match ancestors.find? (fun a => a.id == personId) with
      | none => Except.ok none
      | some person =>
          match buildChildren (buildTreeF ancestors fuel) (childrenRecords ancestors personId) with
          | Except.error e => Except.error e
          | Except.ok kids => Except.ok (some (TreeNode.node person kids))

/-- All person records stored in a built tree, in preorder. -/
def treePersons : TreeNode → List Ancestor
  | .node p cs => p :: cs.attach.flatMap (fun c => treePersons c.1)
decreasing_by
  have h := List.sizeOf_lt_of_mem c.2
  simp only [TreeNode.node.sizeOf_spec]
  omega

/-- Unfolding lemma for `treePersons`. -/
theorem treePersons_node (p : Ancestor) (cs : List TreeNode) :
    treePersons (.node p cs) = p :: cs.flatMap treePersons := by
  rw [treePersons.eq_def]
  have h : cs.attach.flatMap (fun c => treePersons c.1)
      = (cs.attach.map Subtype.val).flatMap treePersons := by
    rw [List.flatMap_map]
  simp [h, List.attach_map_subtype_val]

/-- How many times a given person record appears in a built tree. -/
def countPerson (t : TreeNode) (a : Ancestor) : Nat :=
  (treePersons t).count a

/-- Acyclicity of the father/mother link graph, stated as the existence of a
topological rank (children rank strictly above their in-list parents); for a
finite graph this is equivalent to the absence of directed cycles. -/
def IsAcyclic (ancestors : List Ancestor) : Prop :=
  ∃ rank : String → Nat, ∀ c ∈ ancestors, ∀ p ∈ ancestors,
    (c.fatherId = some p.id ∨ c.motherId = some p.id) → rank p.id < rank c.id

/-! ## Cycle Guard (`hasCircularReference`) -/

/-- The parent ids pushed on the BFS queue for one person:
`if (p.fatherId) queue.push(p.fatherId); if (p.motherId) queue.push(p.motherId)`
(also `[personA.fatherId, personA.motherId].filter(Boolean)` in the
relationship classifier). -/
def parentsOf (a : Ancestor) : List String :=
  (match a.fatherId with
   | some s => if s.isEmpty then [] else [s]
   | none => []) ++
  (match a.motherId with
   | some s => if s.isEmpty then [] else [s]
   | none => [])

/-- The `while (queue.length > 0)` loop of `hasCircularReference`, with fuel:
pop the head, skip it if visited, mark it visited, succeed if it is the
subject, otherwise push the truthy parent links of the popped person. -/
def bfsStep (ancestors : List Ancestor) (personId : String) :
    Nat → List String → List String → Option Bool
  | 0, _, _ => none
  | _ + 1, [], _ => some false
  | fuel + 1, currentId :: queue, visited =>
      if visited.contains currentId then bfsStep ancestors personId fuel queue visited
      else
        if currentId == personId then some true
        else
          bfsStep ancestors personId fuel
            (queue ++ (match lookupLast ancestors currentId with
                       | some p => parentsOf p
                       | none => []))
            (currentId :: visited)

/-- Fuel sufficient for the BFS loop (proved sufficient below): every queue
entry is the proposed parent or a parent link of some record, each distinct
such id is expanded at most once, and each expansion pushes at most two
ids. -/
def bfsFuel (ancestors : List Ancestor) : Nat :=
  6 * ancestors.length + 5

/-- `hasCircularReference` up to fuel: `!proposedParentId` guards `null` and
the empty string, `personId === proposedParentId` returns `true`
immediately, then the BFS runs from the proposed parent. -/
def hasCircularReferenceF (ancestors : List Ancestor) (personId : String) :
    Option String → Option Bool
  | none => some false
  | some q =>
      if q == "" then some false
      else if personId == q then some true
      else bfsStep ancestors personId (bfsFuel ancestors) [q] []

/-- `hasCircularReference`; the fuel default is irrelevant because the fuel
is proved never to run out. -/
def hasCircularReference (ancestors : List Ancestor) (personId : String)
    (proposedParentId : Option String) : Bool :=
  (hasCircularReferenceF ancestors personId proposedParentId).getD false

/-- One upward step of the link graph as traversed by the BFS: the last
record with id `x` has `y` among its truthy parent references. -/
def parentStep (ancestors : List Ancestor) (x y : String) : Prop :=
  ∃ a, lookupLast ancestors x = some a ∧ y ∈ parentsOf a

/-- `UpReach l x z`: `z` is reachable from `x` by following father/mother
links upward (reflexively). -/
inductive UpReach (ancestors : List Ancestor) : String → String → Prop where
  | refl (x : String) : UpReach ancestors x x
  | step {x y z : String} : parentStep ancestors x y → UpReach ancestors y z →
      UpReach ancestors x z

/-! ## Relationship Classifier (`calculateRelationship`) -/

/-- Inner loop of the cousin check: scan one `pA` against all of `parentsB`,
short-circuiting on the first `"Sibling"`-containing recursive result. -/
def rowScan (f : String → String → Option String) (pA : String) :
    List String → Option Bool
  | [] => some false
  | pB :: rest =>
      match f pA pB with
      | none => none
      | some r => if strIncludes r "Sibling" then some true else rowScan f pA rest

/-- Outer loop of the cousin check (`for pA of parentsA { for pB of parentsB
{ ... } }`). -/
def pairScan (f : String → String → Option String) :
    List String → List String → Option Bool
  | [], _ => some false
  | pA :: restA, pbs =>
      match rowScan f pA pbs with
      | none => none
      | some true => some true
      | some false => pairScan f restA pbs

/-- One grandparent loop: is `targetId` a parent link of some in-map parent
of the scanned person. -/
def grandScan (ancestors : List Ancestor) (parents : List String)
    (targetId : String) : Bool :=
  parents.any (fun pid =>
    match lookupLast ancestors pid with
    | some parentNode =>
        parentNode.fatherId == some targetId || parentNode.motherId == some targetId
    | none => false)

/-- The body of `calculateRelationship`, with `f` standing for the recursive
call (used only by the cousin check). The priority order is that of the
source: identity, map lookups, direct parent/child, siblings, first cousins,
the dead `parentsA.includes` branch, grandchild/grandparent, fallback. -/
def relBody (ancestors : List Ancestor) (f : String → String → Option String)
    (personAId personBId : String) : Option String :=
  if personAId == personBId then some "Self"
  else
    match lookupLast ancestors personAId, lookupLast ancestors personBId with
    | some personA, some personB =>
        if personA.fatherId == some personBId || personA.motherId == some personBId then
          some "Child of selected"
        else if personB.fatherId == some personAId || personB.motherId == some personAId then
          some "Parent of selected"
        else
          let shareFather := strTruthy personA.fatherId && personA.fatherId == personB.fatherId
          let shareMother := strTruthy personA.motherId && personA.motherId == personB.motherId
          if shareFather && shareMother then some "Full Sibling"
          else if shareFather || shareMother then some "Half Sibling"
          else
            match pairScan f (parentsOf personA) (parentsOf personB) with
            | none => none
            | some true => some "First Cousin"
            | some false =>
                if (parentsOf personA).contains personBId then some "Child"
                else if grandScan ancestors (parentsOf personA) personBId then
                  some "Grandchild of selected"
                else if grandScan ancestors (parentsOf personB) personAId then
                  some "Grandparent of selected"
                else some "Distant Relative or No Relation Found (Basic Search)"
    | _, _ => some "Unknown"

/-- `calculateRelationship` with an explicit recursion-depth fuel; `none`
models the recursion running past the fuel. -/
def calculateRelationshipF (ancestors : List Ancestor) :
    Nat → String → String → Option String
  | 0, _, _ => none
  | fuel + 1, aId, bId => relBody ancestors (calculateRelationshipF ancestors fuel) aId bId

/-- The direction swap of the claim: `Child of selected` ↔ `Parent of
selected`, `Grandchild of selected` ↔ `Grandparent of selected`, all other
labels fixed. -/
def swapRel (r : String) : String :=
  if r == "Child of selected" then "Parent of selected"
  else if r == "Parent of selected" then "Child of selected"
  else if r == "Grandchild of selected" then "Grandparent of selected"
  else if r == "Grandparent of selected" then "Grandchild of selected"
  else r

/-! ## Theorems -/

/-- **C8**: the Statistics Aggregator applied to the empty person list
returns total, male, female and unknown counts all equal to zero and the
average-lifespan value `"N/A"`. (The embedding is a total function, so no
exception can be raised; the `"N/A"` branch is taken because
`countWithDates` is `0`.) -/
theorem c8_stats_on_empty_list :
    calculateStats [] =
      { total := 0, male := 0, female := 0, unknown := 0, avgLifespan := "N/A" } := rfl

/-- **C10** (amended: for a nonzero year, since the code's JavaScript
truthiness check treats year `0` as missing): a person whose `deathYear`
equals their `birthYear` fails the strict `deathYear > birthYear` test of
`calculateStats` (so contributes nothing to `countWithDates` and the mean),
but passes the `deathYear >= birthYear` test of `getLifespanDistribution`
and lands in the `0-9` bucket. -/
theorem c10_zero_lifespan_disagreement (p : Ancestor) (y : Int) (hy : y ≠ 0)
    (hb : p.birthYear = some y) (hd : p.deathYear = some y) :
    statsCountsLifespan p = false ∧ histCountsLifespan p = true ∧
      (calculateStats [p]).avgLifespan = "N/A" ∧
      (getLifespanDistribution [p]).head? =
        some { range := "0-9", count := 1, label := "0s" } := by
  have hstats : statsCountsLifespan p = false := by
    simp [statsCountsLifespan, hb, hd]
  have hhist : histCountsLifespan p = true := by
    simp [histCountsLifespan, truthyYear, hb, hd, hy]
  refine ⟨hstats, hhist, ?_, ?_⟩
  · cases hg : p.gender <;>
      simp [calculateStats, statsStep, hstats, hg]
  · simp [getLifespanDistribution, distStep, hhist, hb, hd, bucketIndex]
    exact ⟨1, rfl, by decide, rfl, by decide⟩

/-- **C10 counterexample** (to the claim as stated): for the person with
`birthYear = 0` and `deathYear = 0` (equal years), JavaScript truthiness
makes both aggregations skip the record, so it is NOT counted in the `0-9`
bucket of the histogram, contradicting the claim's unconditional "is counted
in the 0-9 bucket". -/
theorem c10_counterexample :
    (let p0 : Ancestor :=
      { id := "p0", name := "P0", birthYear := some 0, deathYear := some 0,
        gender := Gender.Unknown, country := none, fatherId := none,
        motherId := none, notes := "", dateAdded := 0 }
     p0.deathYear = p0.birthYear ∧ statsCountsLifespan p0 = false ∧
       histCountsLifespan p0 = false ∧
       (getLifespanDistribution [p0]).map (fun b => b.count) = List.replicate 11 0) := by
  refine ⟨rfl, rfl, rfl, ?_⟩
  rfl

/-- **C10 witness** for the amended theorem at `y = 70`. -/
theorem c10_witness :
    (let p : Ancestor :=
      { id := "p", name := "P", birthYear := some 70, deathYear := some 70,
        gender := Gender.Unknown, country := none, fatherId := none,
        motherId := none, notes := "", dateAdded := 0 }
     statsCountsLifespan p = false ∧ histCountsLifespan p = true ∧
       (calculateStats [p]).avgLifespan = "N/A" ∧
       (getLifespanDistribution [p]).head? =
         some { range := "0-9", count := 1, label := "0s" }) :=
  c10_zero_lifespan_disagreement _ 70 (by decide) rfl rfl

/-- **C5**: a person with `birthYear = 1900`, `deathYear = 1899` and no
recorded parents gets exactly one anomaly from the scanner's pass over that
record, an `Error` whose message references death before birth; if the
person is in the scanned list, that anomaly is in the scanner's output
(`findLocalAnomalies` is the concatenation of the per-record check lists,
and every anomaly a record's pass emits carries that record's id). -/
theorem c5_death_before_birth (l : List Ancestor) (y : Int) (p : Ancestor)
    (hb : p.birthYear = some 1900) (hd : p.deathYear = some 1899)
    (hf : p.fatherId = none) (hm : p.motherId = none) :
    personChecks l y p =
      [{ id := p.id, name := p.name, type := AnomalyType.Error,
         message := "Death year (1899) is before birth year (1900)." }] ∧
      (p ∈ l →
        { id := p.id, name := p.name, type := AnomalyType.Error,
          message := "Death year (1899) is before birth year (1900)." }
          ∈ findLocalAnomalies l y) := by
  have h1 : personChecks l y p =
      [{ id := p.id, name := p.name, type := AnomalyType.Error,
         message := "Death year (1899) is before birth year (1900)." }] := by
    simp [personChecks, dateAnoms, fatherAnoms, motherAnoms, strTruthy,
      truthyYear, hb, hd, hf, hm]
    rfl
  refine ⟨h1, fun hp => ?_⟩
  rw [findLocalAnomalies]
  exact List.mem_flatMap.mpr ⟨p, hp, by rw [h1]; exact List.mem_singleton.mpr rfl⟩

/-- **C5 witness** at a concrete one-person list. -/
theorem c5_witness :
    (let p : Ancestor :=
      { id := "a1", name := "Ada", birthYear := some 1900, deathYear := some 1899,
        gender := Gender.Female, country := none, fatherId := none,
        motherId := none, notes := "", dateAdded := 0 }
     personChecks [p] 2026 p =
      [{ id := "a1", name := "Ada", type := AnomalyType.Error,
         message := "Death year (1899) is before birth year (1900)." }]) :=
  (c5_death_before_birth _ 2026 _ rfl rfl rfl rfl).1

/-- **C6** (amended: for nonzero birth years, since the code's JavaScript
truthiness check treats year `0` as missing): for a recorded parent/child
pair with both birth years present (and nonzero) and the parent born
strictly before the child, a 5-year age gap makes the scanner emit exactly
the implausibly-young-parent `Warning` for that pair, and a 30-year gap
emits no anomaly for that pair; this holds for both the father and the
mother check. -/
theorem c6_young_parent_warning (l : List Ancestor) (person : Ancestor) :
    (∀ fid father fb pb, person.fatherId = some fid → fid ≠ "" →
      lookupLast l fid = some father → father.birthYear = some fb →
      person.birthYear = some pb → fb ≠ 0 → pb ≠ 0 → fb < pb →
      (pb - fb = 5 →
        fatherAnoms l person =
          [{ id := person.id, name := person.name, type := AnomalyType.Warning,
             message := "Father (" ++ father.name
               ++ ") was only 5 when child was born." }]) ∧
      (pb - fb = 30 → fatherAnoms l person = [])) ∧
    (∀ mid mother mb pb, person.motherId = some mid → mid ≠ "" →
      lookupLast l mid = some mother → mother.birthYear = some mb →
      person.birthYear = some pb → mb ≠ 0 → pb ≠ 0 → mb < pb →
      (pb - mb = 5 →
        motherAnoms l person =
          [{ id := person.id, name := person.name, type := AnomalyType.Warning,
             message := "Mother (" ++ mother.name
               ++ ") was only 5 when child was born." }]) ∧
      (pb - mb = 30 → motherAnoms l person = [])) := by
  constructor
  · intro fid father fb pb hfid hne hlook hfb hpb hfb0 hpb0 hlt
    have hemp : fid.isEmpty = false :=
      Bool.eq_false_iff.mpr (fun h => hne ((String.isEmpty_iff fid).mp h))
    have hge : ¬ fb ≥ pb := by omega
    have hbase : fatherAnoms l person =
        (if pb - fb < 12 then
          [{ id := person.id, name := person.name, type := AnomalyType.Warning,
             message := "Father (" ++ father.name ++ ") was only "
               ++ toString (pb - fb) ++ " when child was born." }]
         else []) := by
      simp [fatherAnoms, strTruthy, truthyYear, hfid, hemp, hlook, hfb, hpb,
        hfb0, hpb0, hge]
    constructor
    · intro hgap
      rw [hbase, hgap, if_pos (by omega)]
      have h5 : toString (5 : Int) = "5" := by decide
      rw [h5]
      have hcat : ") was only " ++ ("5" ++ " when child was born.")
          = ") was only 5 when child was born." := by decide
      simp only [String.append_assoc, hcat]
    · intro hgap
      rw [hbase, hgap, if_neg (by omega)]
  · intro mid mother mb pb hmid hne hlook hmb hpb hmb0 hpb0 hlt
    have hemp : mid.isEmpty = false :=
      Bool.eq_false_iff.mpr (fun h => hne ((String.isEmpty_iff mid).mp h))
    have hge : ¬ mb ≥ pb := by omega
    have hbase : motherAnoms l person =
        (if pb - mb < 12 then
          [{ id := person.id, name := person.name, type := AnomalyType.Warning,
             message := "Mother (" ++ mother.name ++ ") was only "
               ++ toString (pb - mb) ++ " when child was born." }]
         else if pb - mb > 65 then
          [{ id := person.id, name := person.name, type := AnomalyType.Warning,
             message := "Mother (" ++ mother.name ++ ") was " ++ toString (pb - mb)
               ++ " when child was born (unusually old)." }]
         else []) := by
      simp [motherAnoms, strTruthy, truthyYear, hmid, hemp, hlook, hmb, hpb,
        hmb0, hpb0, hge]
    constructor
    · intro hgap
      rw [hbase, hgap, if_pos (by omega)]
      have h5 : toString (5 : Int) = "5" := by decide
      rw [h5]
      have hcat : ") was only " ++ ("5" ++ " when child was born.")
          = ") was only 5 when child was born." := by decide
      simp only [String.append_assoc, hcat]
    · intro hgap
      rw [hbase, hgap, if_neg (by omega), if_neg (by omega)]

/-- Test family for the C6 witness: father of `c6Child1` with a 5-year gap,
mother of `c6Child2` with a 30-year gap. -/
def c6Father : Ancestor :=
  { id := "f", name := "F", birthYear := some 1900, deathYear := none,
    gender := Gender.Male, country := none, fatherId := none,
    motherId := none, notes := "", dateAdded := 0 }

def c6Mother : Ancestor :=
  { id := "m", name := "M", birthYear := some 1900, deathYear := none,
    gender := Gender.Female, country := none, fatherId := none,
    motherId := none, notes := "", dateAdded := 0 }

def c6Child1 : Ancestor :=
  { id := "c1", name := "C1", birthYear := some 1905, deathYear := none,
    gender := Gender.Unknown, country := none, fatherId := some "f",
    motherId := none, notes := "", dateAdded := 0 }

def c6Child2 : Ancestor :=
  { id := "c2", name := "C2", birthYear := some 1930, deathYear := none,
    gender := Gender.Unknown, country := none, fatherId := none,
    motherId := some "m", notes := "", dateAdded := 0 }

def c6List : List Ancestor := [c6Father, c6Mother, c6Child1, c6Child2]

/-- **C6 witness**: a two-child family where the father's gap to the first
child is 5 years (one Warning) and the mother's gap to the second child is
30 years (no anomaly for that pair). -/
theorem c6_witness :
    fatherAnoms c6List c6Child1 =
      [{ id := "c1", name := "C1", type := AnomalyType.Warning,
         message := "Father (F) was only 5 when child was born." }] ∧
    motherAnoms c6List c6Child2 = [] := by
  constructor
  · exact ((c6_young_parent_warning c6List c6Child1).1 "f" c6Father 1900 1905
      rfl (by decide) (by decide) rfl rfl (by decide) (by decide) (by decide)).1
      (by decide)
  · exact ((c6_young_parent_warning c6List c6Child2).2 "m" c6Mother 1900 1930
      rfl (by decide) (by decide) rfl rfl (by decide) (by decide) (by decide)).2
      (by decide)

/-- Father with birth year `0` for the C6 counterexample. -/
def c6xFather : Ancestor :=
  { id := "f0", name := "F0", birthYear := some 0, deathYear := none,
    gender := Gender.Male, country := none, fatherId := none,
    motherId := none, notes := "", dateAdded := 0 }

/-- Child born in year `5` (a 5-year gap) for the C6 counterexample. -/
def c6xChild : Ancestor :=
  { id := "c0", name := "C0", birthYear := some 5, deathYear := none,
    gender := Gender.Unknown, country := none, fatherId := some "f0",
    motherId := none, notes := "", dateAdded := 0 }

/-- **C6 counterexample** (to the claim as stated): both birth years are
present (`0` and `5`), the father was born strictly before the child and the
age gap is 5 years, yet the Anomaly Scanner emits nothing at all, because
`if (father.birthYear && person.birthYear)` treats the present year `0` as
missing (JavaScript truthiness). -/
theorem c6_counterexample :
    c6xFather.birthYear = some 0 ∧ c6xChild.birthYear = some 5 ∧
      c6xChild.fatherId = some c6xFather.id ∧ (0 : Int) < 5 ∧
      findLocalAnomalies [c6xFather, c6xChild] 100 = [] := by
  refine ⟨rfl, rfl, rfl, by decide, ?_⟩
  decide

/-! ### C7: duplicate detection lemmas -/

/-- Folding more records into a bucket list (`dupGroups` is `dupFold []`). -/
def dupFold (gs : List (String × List Ancestor)) (l : List Ancestor) :
    List (String × List Ancestor) :=
  l.foldl (fun gs a => addToGroups gs (dupKey a) a) gs

theorem dupGroups_eq_dupFold (l : List Ancestor) : dupGroups l = dupFold [] l := rfl

/-- Every record stored in a bucket has that bucket's key. -/
theorem addToGroups_keyInv (gs : List (String × List Ancestor)) (a : Ancestor)
    (h : ∀ q ∈ gs, ∀ x ∈ q.2, dupKey x = q.1) :
    ∀ q ∈ addToGroups gs (dupKey a) a, ∀ x ∈ q.2, dupKey x = q.1 := by
  induction gs with
  | nil =>
      intro q hq x hx
      simp only [addToGroups, List.mem_singleton] at hq
      subst hq
      simp only [List.mem_singleton] at hx
      subst hx
      rfl
  | cons hd tl ih =>
      intro q hq x hx
      by_cases hk : hd.1 == dupKey a
      · simp only [addToGroups, hk, if_true] at hq
        rcases List.mem_cons.mp hq with rfl | hq2
        · rcases List.mem_append.mp hx with hx1 | hx2
          · exact h hd (List.mem_cons_self hd tl) x hx1
          · simp only [List.mem_singleton] at hx2
            subst hx2
            exact (eq_of_beq hk).symm
        · exact h q (List.mem_cons_of_mem hd hq2) x hx
      · simp only [addToGroups, hk] at hq
        simp only [Bool.false_eq_true, if_false] at hq
        rcases List.mem_cons.mp hq with heq | hq2
        · subst heq
          exact h hd (List.mem_cons_self hd tl) x hx
        · exact ih (fun q2 hq2 => h q2 (List.mem_cons_of_mem hd hq2)) q hq2 x hx

/-- The inserted record lands in a bucket carrying its key. -/
theorem addToGroups_mem (gs : List (String × List Ancestor)) (key : String)
    (a : Ancestor) :
    ∃ q ∈ addToGroups gs key a, q.1 = key ∧ a ∈ q.2 := by
  induction gs with
  | nil =>
      exact ⟨(key, [a]), List.mem_singleton.mpr rfl, rfl, List.mem_singleton.mpr rfl⟩
  | cons hd tl ih =>
      by_cases hk : hd.1 == key
      · refine ⟨(hd.1, hd.2 ++ [a]), ?_, eq_of_beq hk, ?_⟩
        · simp [addToGroups, hk]
        · simp
      · rcases ih with ⟨q, hq, hqk, hqa⟩
        refine ⟨q, ?_, hqk, hqa⟩
        simp only [addToGroups, hk, Bool.false_eq_true, if_false]
        exact List.mem_cons_of_mem hd hq

/-- Insertion never loses a record already stored in some bucket. -/
theorem addToGroups_mono (gs : List (String × List Ancestor)) (key : String)
    (a : Ancestor) (q : String × List Ancestor) (x : Ancestor)
    (hq : q ∈ gs) (hx : x ∈ q.2) :
    ∃ q2 ∈ addToGroups gs key a, q2.1 = q.1 ∧ x ∈ q2.2 := by
  induction gs with
  | nil => simp at hq
  | cons hd tl ih =>
      by_cases hk : hd.1 == key
      · rcases List.mem_cons.mp hq with heq | hq2
        · refine ⟨(hd.1, hd.2 ++ [a]), ?_, by rw [heq], ?_⟩
          · simp [addToGroups, hk]
          · exact List.mem_append_left _ (heq ▸ hx)
        · refine ⟨q, ?_, rfl, hx⟩
          simp only [addToGroups, hk, if_true]
          exact List.mem_cons_of_mem _ hq2
      · rcases List.mem_cons.mp hq with heq | hq2
        · refine ⟨hd, ?_, by rw [heq], heq ▸ hx⟩
          simp only [addToGroups, hk, Bool.false_eq_true, if_false]
          exact List.mem_cons_self hd _
        · rcases ih hq2 with ⟨q2, hq2m, hq2k, hq2x⟩
          refine ⟨q2, ?_, hq2k, hq2x⟩
          simp only [addToGroups, hk, Bool.false_eq_true, if_false]
          exact List.mem_cons_of_mem hd hq2m

/-- Keys after insertion are the new key or an old key. -/
theorem addToGroups_keys_sub (gs : List (String × List Ancestor)) (key : String)
    (a : Ancestor) :
    ∀ k ∈ (addToGroups gs key a).map Prod.fst, k = key ∨ k ∈ gs.map Prod.fst := by
  induction gs with
  | nil => simp [addToGroups]
  | cons hd tl ih =>
      intro k hkm
      by_cases hk : hd.1 == key
      · simp only [addToGroups, hk, if_true, List.map_cons, List.mem_cons] at hkm
        rcases hkm with rfl | hkm2
        · right; simp
        · right; simp only [List.map_cons, List.mem_cons]; right; exact hkm2
      · simp only [addToGroups, hk, Bool.false_eq_true, if_false, List.map_cons,
          List.mem_cons] at hkm
        rcases hkm with rfl | hkm2
        · right; simp
        · rcases ih k hkm2 with rfl | hold
          · left; rfl
          · right; simp only [List.map_cons, List.mem_cons]; right; exact hold

/-- Insertion keeps bucket keys pairwise distinct. -/
theorem addToGroups_keys_nodup (gs : List (String × List Ancestor)) (key : String)
    (a : Ancestor) (h : (gs.map Prod.fst).Nodup) :
    ((addToGroups gs key a).map Prod.fst).Nodup := by
  induction gs with
  | nil => simp [addToGroups]
  | cons hd tl ih =>
      simp only [List.map_cons, List.nodup_cons] at h
      by_cases hk : hd.1 == key
      · simp only [addToGroups, hk, if_true, List.map_cons, List.nodup_cons]
        exact ⟨h.1, h.2⟩
      · simp only [addToGroups, hk, Bool.false_eq_true, if_false, List.map_cons,
          List.nodup_cons]
        refine ⟨?_, ih h.2⟩
        intro hmem
        rcases addToGroups_keys_sub tl key a hd.1 hmem with rfl | hold
        · simp at hk
        · exact h.1 hold

/-- `dupFold` preserves the bucket-key invariant. -/
theorem dupFold_keyInv (l : List Ancestor) :
    ∀ gs, (∀ q ∈ gs, ∀ x ∈ q.2, dupKey x = q.1) →
      ∀ q ∈ dupFold gs l, ∀ x ∈ q.2, dupKey x = q.1 := by
  induction l with
  | nil => intro gs h; exact h
  | cons a rest ih =>
      intro gs h
      exact ih _ (addToGroups_keyInv gs a h)

/-- `dupFold` keeps every record already stored, in a bucket with the same
key. -/
theorem dupFold_mono (l : List Ancestor) :
    ∀ gs (K : String) (x : Ancestor), (∃ q ∈ gs, q.1 = K ∧ x ∈ q.2) →
      ∃ q ∈ dupFold gs l, q.1 = K ∧ x ∈ q.2 := by
  induction l with
  | nil => intro gs K x h; exact h
  | cons a rest ih =>
      intro gs K x h
      rcases h with ⟨q, hq, hqk, hqx⟩
      rcases addToGroups_mono gs (dupKey a) a q x hq hqx with ⟨q2, hq2, hq2k, hq2x⟩
      exact ih _ K x ⟨q2, hq2, hq2k.trans hqk, hq2x⟩

/-- Every folded-in record ends up in the bucket of its key. -/
theorem dupFold_mem (l : List Ancestor) :
    ∀ gs (a : Ancestor), a ∈ l →
      ∃ q ∈ dupFold gs l, q.1 = dupKey a ∧ a ∈ q.2 := by
  induction l with
  | nil => intro gs a h; simp at h
  | cons b rest ih =>
      intro gs a h
      rcases List.mem_cons.mp h with rfl | h2
      · rcases addToGroups_mem gs (dupKey a) a with ⟨q, hq, hqk, hqa⟩
        exact dupFold_mono rest _ (dupKey a) a ⟨q, hq, hqk, hqa⟩
      · exact ih _ a h2

/-- `dupFold` keeps bucket keys pairwise distinct. -/
theorem dupFold_keys_nodup (l : List Ancestor) :
    ∀ gs, (gs.map Prod.fst).Nodup → ((dupFold gs l).map Prod.fst).Nodup := by
  induction l with
  | nil => intro gs h; exact h
  | cons a rest ih =>
      intro gs h
      exact ih _ (addToGroups_keys_nodup gs (dupKey a) a h)

/-- A list containing two distinct elements has more than one element. -/
theorem one_lt_length_of_two_mem {α : Type} {g : List α} {x y : α}
    (hx : x ∈ g) (hy : y ∈ g) (hne : x ≠ y) : 1 < g.length := by
  cases g with
  | nil => simp at hx
  | cons h t =>
      simp only [List.length_cons]
      rcases List.mem_cons.mp hx with rfl | hx2
      · rcases List.mem_cons.mp hy with rfl | hy2
        · exact absurd rfl hne
        · have := List.length_pos.mpr (List.ne_nil_of_mem hy2)
          omega
      · have := List.length_pos.mpr (List.ne_nil_of_mem hx2)
        omega

/-- **C7**: duplicate detection groups by normalized (lowercased, trimmed)
name plus birth year and reports exactly the groups with more than one
member. Two distinct persons named "John Smith" born 1950 are together in
some reported group that does not contain any person named "John Smith" born
1951; moreover every reported group has more than one member, all sharing
one bucket key. -/
theorem c7_duplicate_grouping (l : List Ancestor) (p1 p2 p3 : Ancestor)
    (h1 : p1 ∈ l) (h2 : p2 ∈ l) (hne : p1 ≠ p2)
    (h1n : p1.name = "John Smith") (h1b : p1.birthYear = some 1950)
    (h2n : p2.name = "John Smith") (h2b : p2.birthYear = some 1950)
    (h3n : p3.name = "John Smith") (h3b : p3.birthYear = some 1951) :
    (∃ g ∈ findPotentialDuplicates l, p1 ∈ g ∧ p2 ∈ g ∧ p3 ∉ g) ∧
      ∀ g ∈ findPotentialDuplicates l, 1 < g.length ∧
        ∀ x ∈ g, ∀ y ∈ g, dupKey x = dupKey y := by
  have hk1 : dupKey p1 = "john smith-1950" := by
    simp only [dupKey, h1n, h1b]; decide
  have hk2 : dupKey p2 = "john smith-1950" := by
    simp only [dupKey, h2n, h2b]; decide
  have hk3 : dupKey p3 = "john smith-1951" := by
    simp only [dupKey, h3n, h3b]; decide
  have hinv : ∀ q ∈ dupGroups l, ∀ x ∈ q.2, dupKey x = q.1 := by
    rw [dupGroups_eq_dupFold]
    exact dupFold_keyInv l [] (by simp)
  have hnodup : ((dupGroups l).map Prod.fst).Nodup := by
    rw [dupGroups_eq_dupFold]
    exact dupFold_keys_nodup l [] (by simp)
  have hmem1 : ∃ q ∈ dupGroups l, q.1 = dupKey p1 ∧ p1 ∈ q.2 := by
    rw [dupGroups_eq_dupFold]
    exact dupFold_mem l [] p1 h1
  have hmem2 : ∃ q ∈ dupGroups l, q.1 = dupKey p2 ∧ p2 ∈ q.2 := by
    rw [dupGroups_eq_dupFold]
    exact dupFold_mem l [] p2 h2
  rcases hmem1 with ⟨q1, hq1, hq1k, hq1m⟩
  rcases hmem2 with ⟨q2, hq2, hq2k, hq2m⟩
  have hqq : q1 = q2 := by
    apply List.inj_on_of_nodup_map hnodup hq1 hq2
    rw [hq1k, hq2k, hk1, hk2]
  subst hqq
  have hlen : 1 < q1.2.length := one_lt_length_of_two_mem hq1m hq2m hne
  constructor
  · refine ⟨q1.2, ?_, hq1m, hq2m, ?_⟩
    · rw [findPotentialDuplicates]
      refine List.mem_filter.mpr ⟨List.mem_map.mpr ⟨q1, hq1, rfl⟩, ?_⟩
      simpa using hlen
    · intro hp3
      have := hinv q1 hq1 p3 hp3
      rw [hk3, hq1k, hk1] at this
      exact absurd this (by decide)
  · intro g hg
    rw [findPotentialDuplicates] at hg
    rcases List.mem_filter.mp hg with ⟨hgm, hglen⟩
    rcases List.mem_map.mp hgm with ⟨q, hq, rfl⟩
    refine ⟨by simpa using hglen, ?_⟩
    intro x hx y hy
    rw [hinv q hq x hx, hinv q hq y hy]

/-- Fixture persons for the C7 witness. -/
def c7P1 : Ancestor :=
  { id := "j1", name := "John Smith", birthYear := some 1950, deathYear := none,
    gender := Gender.Male, country := none, fatherId := none,
    motherId := none, notes := "", dateAdded := 0 }

def c7P2 : Ancestor :=
  { id := "j2", name := "John Smith", birthYear := some 1950, deathYear := none,
    gender := Gender.Male, country := none, fatherId := none,
    motherId := none, notes := "", dateAdded := 0 }

def c7P3 : Ancestor :=
  { id := "j3", name := "John Smith", birthYear := some 1951, deathYear := none,
    gender := Gender.Male, country := none, fatherId := none,
    motherId := none, notes := "", dateAdded := 0 }

/-- **C7 witness** at the three concrete John Smiths. -/
theorem c7_witness :
    ∃ g ∈ findPotentialDuplicates [c7P1, c7P2, c7P3], c7P1 ∈ g ∧ c7P2 ∈ g ∧ c7P3 ∉ g :=
  (c7_duplicate_grouping [c7P1, c7P2, c7P3] c7P1 c7P2 c7P3
    (by decide) (by decide) (by decide) rfl rfl rfl rfl rfl rfl).1

/-! ### C3: root selection -/

/-- **C3** (amended): for every non-empty person list, both tree builders
select as root the FIRST person (in list order) with no truthy father or
mother reference when one exists; otherwise the tree-view builder falls back
to a person whose `birthYear || 9999` sort key is minimal (the head of the
stable sort), while the studio builder falls back to the FIRST person of the
list regardless of birth year. -/
theorem c3_root_selection (l : List Ancestor) (hne : l ≠ []) :
    ((∃ a ∈ l, parentless a = true) →
      selectRootTreeView l = l.find? parentless ∧
        selectRootStudio l = l.find? parentless) ∧
    ((∀ a ∈ l, parentless a = false) →
      (∃ m, selectRootTreeView l = some m ∧ m ∈ l ∧
        ∀ a ∈ l, sortKey m ≤ sortKey a) ∧
        selectRootStudio l = l.head?) := by
  constructor
  · intro hex
    rcases hex with ⟨a, ha, hpa⟩
    have hfind : ∃ r, l.find? parentless = some r :=
      Option.isSome_iff_exists.mp (List.find?_isSome.mpr ⟨a, ha, hpa⟩)
    rcases hfind with ⟨r, hr⟩
    have hhead : (potentialRoots l).head? = some r := by
      rw [potentialRoots, List.filter_head?, hr]
    constructor
    · rw [selectRootTreeView, hhead, hr]
    · rw [selectRootStudio, hhead, hr]
  · intro hnone
    have hfilter : potentialRoots l = [] := by
      rw [potentialRoots]
      exact List.filter_eq_nil_iff.mpr (fun a ha => by simp [hnone a ha])
    have hhead : (potentialRoots l).head? = none := by rw [hfilter]; rfl
    constructor
    · have hperm : (sortedByAge l).Perm l := List.mergeSort_perm l _
      have hsortne : sortedByAge l ≠ [] := by
        intro h
        have hlen := hperm.length_eq
        rw [h] at hlen
        exact hne (List.length_eq_zero.mp hlen.symm)
      rcases List.exists_cons_of_ne_nil hsortne with ⟨m, t, hmt⟩
      have hsorted : List.Pairwise
          (fun a b => (decide (sortKey a ≤ sortKey b)) = true) (sortedByAge l) := by
        apply List.sorted_mergeSort
        · intro a b c hab hbc
          simp only [decide_eq_true_eq] at *
          omega
        · intro a b
          simp only [Bool.or_eq_true, decide_eq_true_eq]
          omega
      refine ⟨m, ?_, ?_, ?_⟩
      · rw [selectRootTreeView, hhead, hmt]
        rfl
      · exact hperm.mem_iff.mp (hmt ▸ List.mem_cons_self m t)
      · intro a ha
        have hain : a ∈ m :: t := hmt ▸ hperm.mem_iff.mpr ha
        rcases List.mem_cons.mp hain with rfl | hat
        · exact le_refl _
        · have := (List.pairwise_cons.mp (hmt ▸ hsorted)).1 a hat
          simpa using this
    · rw [selectRootStudio, hhead]

/-- Person with a dangling father reference, born 1950, listed first (C3
counterexample fixture). -/
def c3A : Ancestor :=
  { id := "a", name := "A", birthYear := some 1950, deathYear := none,
    gender := Gender.Male, country := none, fatherId := some "ghost",
    motherId := none, notes := "", dateAdded := 0 }

/-- Person with a dangling father reference, born 1900, listed second (C3
counterexample fixture). -/
def c3B : Ancestor :=
  { id := "b", name := "B", birthYear := some 1900, deathYear := none,
    gender := Gender.Male, country := none, fatherId := some "ghost",
    motherId := none, notes := "", dateAdded := 0 }

/-- **C3 counterexample** (to the claim as stated): in `[c3A, c3B]` nobody is
parentless (both carry a dangling father reference), so the claim demands
the earliest-born person (`c3B`, born 1900) as root; the studio builder
instead falls back to `ancestors[0]` and selects `c3A` (born 1950). -/
theorem c3_counterexample :
    (∀ a ∈ [c3A, c3B], parentless a = false) ∧
      selectRootStudio [c3A, c3B] = some c3A ∧
      c3A.birthYear = some 1950 ∧ c3B ∈ [c3A, c3B] ∧ c3B.birthYear = some 1900 := by
  refine ⟨by decide, by decide, rfl, by decide, rfl⟩

/-- Parentless fixture person for the C3 witness. -/
def c3W : Ancestor :=
  { id := "w", name := "W", birthYear := some 1880, deathYear := none,
    gender := Gender.Female, country := none, fatherId := none,
    motherId := none, notes := "", dateAdded := 0 }

/-- **C3 witness**: on `[c3W]` (one parentless person) both builders pick the
first parentless person. -/
theorem c3_witness :
    selectRootTreeView [c3W] = List.find? parentless [c3W] ∧
      selectRootStudio [c3W] = List.find? parentless [c3W] :=
  (c3_root_selection [c3W] (by decide)).1 ⟨c3W, by decide, by decide⟩

/-! ### C1: tree builder -/

/-- A stronger filter keeps at most as many elements. -/
theorem filter_length_le_of_imp {α : Type} {p q : α → Bool} (l : List α)
    (h : ∀ a ∈ l, q a = true → p a = true) :
    (l.filter q).length ≤ (l.filter p).length := by
  induction l with
  | nil => simp
  | cons hd tl ih =>
      have htl := ih (fun a ha => h a (List.mem_cons_of_mem hd ha))
      by_cases hq : q hd = true
      · have hp := h hd (List.mem_cons_self hd tl) hq
        simp [List.filter_cons, hq, hp]
        omega
      · have hq2 : q hd = false := by simpa using hq
        by_cases hp : p hd = true
        · simp [List.filter_cons, hq2, hp]
          omega
        · have hp2 : p hd = false := by simpa using hp
          simp [List.filter_cons, hq2, hp2]
          exact htl

/-- A strictly stronger filter (witnessed by a kept-then-dropped member)
keeps strictly fewer elements. -/
theorem filter_length_lt_of_imp {α : Type} {p q : α → Bool} (l : List α)
    (h : ∀ a ∈ l, q a = true → p a = true) (c : α) (hc : c ∈ l)
    (hp : p c = true) (hq : q c = false) :
    (l.filter q).length < (l.filter p).length := by
  induction l with
  | nil => simp at hc
  | cons hd tl ih =>
      have htl := filter_length_le_of_imp tl
        (fun a ha => h a (List.mem_cons_of_mem hd ha))
      rcases List.mem_cons.mp hc with rfl | hc2
      · simp [List.filter_cons, hq, hp]
        omega
      · have hlt := ih (fun a ha => h a (List.mem_cons_of_mem hd ha)) hc2
        by_cases hqh : q hd = true
        · have hph := h hd (List.mem_cons_self hd tl) hqh
          simp [List.filter_cons, hqh, hph]
          omega
        · have hq2 : q hd = false := by simpa using hqh
          by_cases hph : p hd = true
          · simp [List.filter_cons, hq2, hph]
            omega
          · have hp2 : p hd = false := by simpa using hph
            simp [List.filter_cons, hq2, hp2]
            exact hlt

/-- `buildChildren` only fails when one of the child builds fails. -/
theorem buildChildren_no_error (f : String → Except Unit (Option TreeNode))
    (cs : List Ancestor) (h : ∀ c ∈ cs, f c.id ≠ Except.error ()) :
    buildChildren f cs ≠ Except.error () := by
  induction cs with
  | nil => simp [buildChildren]
  | cons c rest ih =>
      have hc := h c (List.mem_cons_self c rest)
      have hrest := ih (fun x hx => h x (List.mem_cons_of_mem c hx))
      rw [buildChildren]
      cases hfc : f c.id with
      | error e => cases e; exact absurd hfc hc
      | ok o =>
          cases o with
          | none => exact hrest
          | some t =>
              cases hb : buildChildren f rest with
              | error e => cases e; exact absurd hb hrest
              | ok ts => simp

/-- Every tree in a successful `buildChildren` result comes from a
successful child build. -/
theorem buildChildren_mem (f : String → Except Unit (Option TreeNode)) :
    ∀ cs ts, buildChildren f cs = Except.ok ts →
      ∀ t ∈ ts, ∃ c ∈ cs, f c.id = Except.ok (some t) := by
  intro cs
  induction cs with
  | nil =>
      intro ts h t ht
      simp only [buildChildren] at h
      cases h
      simp at ht
  | cons c rest ih =>
      intro ts h t ht
      rw [buildChildren] at h
      cases hfc : f c.id with
      | error e => rw [hfc] at h; cases h
      | ok o =>
          rw [hfc] at h
          cases o with
          | none =>
              rcases ih ts h t ht with ⟨c2, hc2, hfc2⟩
              exact ⟨c2, List.mem_cons_of_mem c hc2, hfc2⟩
          | some t0 =>
              cases hb : buildChildren f rest with
              | error e => rw [hb] at h; cases h
              | ok ts0 =>
                  rw [hb] at h
                  cases h
                  rcases List.mem_cons.mp ht with rfl | ht2
                  · exact ⟨c, List.mem_cons_self c rest, hfc⟩
                  · rcases ih ts0 hb t ht2 with ⟨c2, hc2, hfc2⟩
                    exact ⟨c2, List.mem_cons_of_mem c hc2, hfc2⟩

/-- With a topological rank, `buildTreeF` never exhausts fuel exceeding the
number of records ranked above the requested id. -/
theorem buildTreeF_no_error (l : List Ancestor) (rank : String → Nat)
    (hrank : ∀ c ∈ l, ∀ p ∈ l,
      (c.fatherId = some p.id ∨ c.motherId = some p.id) → rank p.id < rank c.id) :
    ∀ fuel pid,
      (l.filter (fun a => decide (rank pid < rank a.id))).length < fuel →
      buildTreeF l fuel pid ≠ Except.error () := by
  intro fuel
  induction fuel with
  | zero => intro pid h; omega
  | succ n ih =>
      intro pid h
      rw [buildTreeF]
      cases hfind : l.find? (fun a => a.id == pid) with
      | none => simp
      | some person =>
          have hpmem : person ∈ l := List.mem_of_find?_eq_some hfind
          have hpid : person.id = pid := by
            have := List.find?_some hfind
            simpa using this
          have hkids : buildChildren (buildTreeF l n) (childrenRecords l pid)
              ≠ Except.error () := by
            apply buildChildren_no_error
            intro c hcm
            rw [childrenRecords] at hcm
            have hcl : c ∈ l := (List.mem_filter.mp hcm).1
            have hlink : (c.fatherId == some pid || c.motherId == some pid) = true :=
              (List.mem_filter.mp hcm).2
            have hlink2 : c.fatherId = some person.id ∨ c.motherId = some person.id := by
              rw [hpid]
              rcases Bool.or_eq_true_iff.mp hlink with h1 | h2
              · exact Or.inl (eq_of_beq h1)
              · exact Or.inr (eq_of_beq h2)
            have hlt : rank pid < rank c.id := by
              have := hrank c hcl person hpmem hlink2
              rwa [hpid] at this
            apply ih
            have hdec :
                (l.filter (fun a => decide (rank c.id < rank a.id))).length <
                (l.filter (fun a => decide (rank pid < rank a.id))).length := by
              apply filter_length_lt_of_imp l ?_ c hcl (by simpa using hlt)
                (by simp)
              intro a _ hqa
              simp only [decide_eq_true_eq] at hqa ⊢
              omega
            omega
          cases hb : buildChildren (buildTreeF l n) (childrenRecords l pid) with
          | error e => cases e; exact absurd hb hkids
          | ok kids => simp

/-- Every person stored in a successfully built tree is a record of the
input list. -/
theorem buildTreeF_persons_sub (l : List Ancestor) :
    ∀ fuel pid t, buildTreeF l fuel pid = Except.ok (some t) →
      ∀ a ∈ treePersons t, a ∈ l := by
  intro fuel
  induction fuel with
  | zero => intro pid t h; cases h
  | succ n ih =>
      intro pid t h a ha
      rw [buildTreeF] at h
      cases hfind : l.find? (fun x => x.id == pid) with
      | none => rw [hfind] at h; cases h
      | some person =>
          rw [hfind] at h
          cases hb : buildChildren (buildTreeF l n) (childrenRecords l pid) with
          | error e => rw [hb] at h; cases h
          | ok kids =>
              rw [hb] at h
              cases h
              rw [treePersons_node] at ha
              rcases List.mem_cons.mp ha with rfl | ha2
              · exact List.mem_of_find?_eq_some hfind
              · rcases List.mem_flatMap.mp ha2 with ⟨k, hk, hak⟩
                rcases buildChildren_mem (buildTreeF l n) _ kids hb k hk with
                  ⟨c, _, hfc⟩
                exact ih c.id k hfc a hak

/-- **C1** (amended): for every finite list whose father/mother links are
acyclic, the Tree Builder terminates — the recursion never exceeds depth
`length + 1`, modelled as the fuel bound never being exhausted — and every
node of the resulting tree carries a person from the list. (The original
"every person appears exactly once" is refuted by `c1_counterexample`: a
person reachable through two in-tree parents appears twice, and a person not
reachable from the selected root does not appear.) -/
theorem c1_tree_builder_terminates (l : List Ancestor) (h : IsAcyclic l)
    (pid : String) :
    buildTreeF l (l.length + 1) pid ≠ Except.error () ∧
      ∀ t, buildTreeF l (l.length + 1) pid = Except.ok (some t) →
        ∀ a ∈ treePersons t, a ∈ l := by
  rcases h with ⟨rank, hrank⟩
  constructor
  · apply buildTreeF_no_error l rank hrank
    have := List.length_filter_le (fun a => decide (rank pid < rank a.id)) l
    omega
  · intro t ht
    exact buildTreeF_persons_sub l (l.length + 1) pid t ht

/-- Root of the C1 counterexample family (no parents). -/
def c1F : Ancestor :=
  { id := "F", name := "F", birthYear := some 1900, deathYear := none,
    gender := Gender.Male, country := none, fatherId := none,
    motherId := none, notes := "", dateAdded := 0 }

/-- Daughter of `c1F` (and mother of `c1X`). -/
def c1M : Ancestor :=
  { id := "M", name := "M", birthYear := some 1925, deathYear := none,
    gender := Gender.Female, country := none, fatherId := some "F",
    motherId := none, notes := "", dateAdded := 0 }

/-- Child of `c1F` (father) and `c1M` (mother): reachable from the root
along two distinct downward paths. -/
def c1X : Ancestor :=
  { id := "X", name := "X", birthYear := some 1950, deathYear := none,
    gender := Gender.Unknown, country := none, fatherId := some "F",
    motherId := some "M", notes := "", dateAdded := 0 }

def c1List : List Ancestor := [c1F, c1M, c1X]

/-- `c1List` is acyclic (topological rank F < M < X). -/
theorem c1List_acyclic : IsAcyclic c1List :=
  ⟨fun s => if s = "F" then 0 else if s = "M" then 1 else 2, by decide⟩

/-- The tree the builder produces on `c1List` from root `F`. -/
def c1Tree : TreeNode :=
  TreeNode.node c1F
    [TreeNode.node c1M [TreeNode.node c1X []], TreeNode.node c1X []]

/-- **C1 counterexample** (to the claim as stated): `c1List` is finite and
acyclic, the tree view selects root `F`, the build terminates, but person
`X` — child of both in-tree persons `F` and `M` — appears TWICE in the
resulting tree, not exactly once. -/
theorem c1_counterexample :
    IsAcyclic c1List ∧ selectRootTreeView c1List = some c1F ∧
      buildTreeF c1List (c1List.length + 1) "F" = Except.ok (some c1Tree) ∧
      c1X ∈ c1List ∧ countPerson c1Tree c1X = 2 := by
  refine ⟨c1List_acyclic, rfl, rfl, by decide, ?_⟩
  simp [countPerson, c1Tree, treePersons_node]
  decide

/-- **C1 witness**: the amended theorem applied to the concrete acyclic
`c1List`. -/
theorem c1_witness :
    buildTreeF c1List (c1List.length + 1) "F" ≠ Except.error () :=
  (c1_tree_builder_terminates c1List c1List_acyclic "F").1

/-! ### C2 and C9: the cycle guard BFS -/

/-- All truthy parent references appearing in the list: every id the BFS can
ever push. -/
def parentIds (ancestors : List Ancestor) : List String :=
  ancestors.flatMap parentsOf

/-- Everything that can ever sit in the BFS queue started from `q0`. -/
def bfsCandidates (ancestors : List Ancestor) (q0 : String) : List String :=
  q0 :: parentIds ancestors

/-- A record pushes at most two parent ids. -/
theorem parentsOf_length_le (a : Ancestor) : (parentsOf a).length ≤ 2 := by
  rw [parentsOf]
  have h1 : (match a.fatherId with
      | some s => if s.isEmpty then [] else [s]
      | none => ([] : List String)).length ≤ 1 := by
    rcases a.fatherId with _ | f
    · simp
    · by_cases hf : f.isEmpty <;> simp [hf]
  have h2 : (match a.motherId with
      | some s => if s.isEmpty then [] else [s]
      | none => ([] : List String)).length ≤ 1 := by
    rcases a.motherId with _ | m
    · simp
    · by_cases hm : m.isEmpty <;> simp [hm]
  rw [List.length_append]
  omega

/-- The pushable ids are at most twice the record count. -/
theorem parentIds_length_le (ancestors : List Ancestor) :
    (parentIds ancestors).length ≤ 2 * ancestors.length := by
  induction ancestors with
  | nil => simp [parentIds]
  | cons a rest ih =>
      have hlen : (parentIds (a :: rest)).length
          = (parentsOf a).length + (parentIds rest).length := by
        simp [parentIds]
      have := parentsOf_length_le a
      simp only [hlen, List.length_cons]
      omega

/-- Parent ids of a looked-up record are pushable. -/
theorem parents_mem_parentIds (ancestors : List Ancestor) (cur : String)
    (p : Ancestor) (hl : lookupLast ancestors cur = some p) :
    ∀ y ∈ parentsOf p, y ∈ parentIds ancestors := by
  intro y hy
  have hp : p ∈ ancestors :=
    List.mem_reverse.mp (List.mem_of_find?_eq_some hl)
  exact List.mem_flatMap.mpr ⟨p, hp, hy⟩

/-- Marking a fresh reachable id as visited shrinks the unvisited candidate
pool by exactly one. -/
theorem filter_visited_cons (d : List String) (visited : List String) (c : String)
    (hnd : d.Nodup) (hc : c ∈ d) (hv : visited.contains c = false) :
    (d.filter (fun x => !(c :: visited).contains x)).length + 1
      = (d.filter (fun x => !visited.contains x)).length := by
  induction d with
  | nil => simp at hc
  | cons a t ih =>
      rcases List.nodup_cons.mp hnd with ⟨hat, hnt⟩
      by_cases hca : a = c
      · subst hca
        have hfilters : t.filter (fun x => !(a :: visited).contains x)
            = t.filter (fun x => !visited.contains x) := by
          apply List.filter_congr
          intro x hx
          have hne2 : x ≠ a := fun h => hat (h ▸ hx)
          have hxa : (x == a) = false := by simp [hne2]
          simp only [List.contains_cons, hxa, Bool.false_or]
        have hkeep : (!visited.contains a) = true := by rw [hv]; rfl
        have hdrop : (!(a :: visited).contains a) = false := by
          have : (a :: visited).contains a = true := by
            rw [List.contains_cons]
            simp
          rw [this]
          rfl
        rw [List.filter_cons, List.filter_cons, hkeep, hdrop,
          if_neg Bool.false_ne_true, if_pos rfl, hfilters, List.length_cons]
      · have hct : c ∈ t := by
          rcases List.mem_cons.mp hc with h | h
          · exact absurd h.symm hca
          · exact h
        have hac : (a == c) = false := by simp [hca]
        have haeq : (!(c :: visited).contains a) = (!visited.contains a) := by
          simp only [List.contains_cons, hac, Bool.false_or]
        have hrec := ih hnt hct
        rw [List.filter_cons, List.filter_cons, haeq]
        cases hcond : (!visited.contains a) with
        | true =>
            rw [if_pos rfl, if_pos rfl]
            simp only [List.length_cons]
            omega
        | false =>
            rw [if_neg Bool.false_ne_true, if_neg Bool.false_ne_true]
            omega

/-- The BFS measure: pending queue entries plus three budget units per
not-yet-visited candidate id. -/
def bfsMeasure (ancestors : List Ancestor) (q0 : String)
    (queue visited : List String) : Nat :=
  queue.length +
    3 * ((bfsCandidates ancestors q0).dedup.filter
      (fun x => !visited.contains x)).length

/-- The BFS loop halts (returns `some _`) whenever its fuel exceeds the
measure: each iteration strictly decreases the measure. -/
theorem bfsStep_no_none (ancestors : List Ancestor) (personId q0 : String) :
    ∀ fuel queue visited,
      (∀ x ∈ queue, x ∈ bfsCandidates ancestors q0) →
      bfsMeasure ancestors q0 queue visited < fuel →
      bfsStep ancestors personId fuel queue visited ≠ none := by
  intro fuel
  induction fuel with
  | zero => intro queue visited _ hm; omega
  | succ n ih =>
      intro queue visited hq hm
      cases queue with
      | nil => rw [bfsStep]; simp
      | cons c rest =>
          rw [bfsStep]
          by_cases hvis : visited.contains c = true
          · rw [if_pos hvis]
            apply ih rest visited (fun x hx => hq x (List.mem_cons_of_mem c hx))
            unfold bfsMeasure at hm ⊢
            simp only [List.length_cons] at hm
            omega
          · have hvis2 : visited.contains c = false := by simpa using hvis
            rw [if_neg hvis]
            by_cases hcp : (c == personId) = true
            · rw [if_pos hcp]; simp
            · rw [if_neg (by simp_all)]
              set pushed := (match lookupLast ancestors c with
                | some p => parentsOf p
                | none => []) with hpushed
              apply ih
              · intro x hx
                rcases List.mem_append.mp hx with hx1 | hx2
                · exact hq x (List.mem_cons_of_mem c hx1)
                · cases hl : lookupLast ancestors c with
                  | none => rw [hpushed, hl] at hx2; simp at hx2
                  | some p =>
                      rw [hpushed, hl] at hx2
                      exact List.mem_cons_of_mem q0
                        (parents_mem_parentIds ancestors c p hl x hx2)
              · have hpush_le : pushed.length ≤ 2 := by
                  cases hl : lookupLast ancestors c with
                  | none => rw [hpushed, hl]; simp
                  | some p => rw [hpushed, hl]; exact parentsOf_length_le p
                have hcc : c ∈ (bfsCandidates ancestors q0).dedup :=
                  List.mem_dedup.mpr (hq c (List.mem_cons_self c rest))
                have hshrink := filter_visited_cons
                  (bfsCandidates ancestors q0).dedup visited c
                  (List.nodup_dedup _) hcc hvis2
                unfold bfsMeasure at hm ⊢
                simp only [List.length_cons, List.length_append] at hm ⊢
                omega

/-- Concatenating a path with one upward step. -/
theorem UpReach.push (ancestors : List Ancestor) {x y z : String}
    (h1 : UpReach ancestors x y) (h2 : parentStep ancestors y z) :
    UpReach ancestors x z := by
  induction h1 with
  | refl w => exact UpReach.step h2 (UpReach.refl z)
  | step hp _ ih => exact UpReach.step hp (ih h2)

/-- BFS soundness: a `some true` answer means the subject is upward-reachable
from the start, provided every queue entry already is. -/
theorem bfsStep_sound (ancestors : List Ancestor) (personId q0 : String) :
    ∀ fuel queue visited, (∀ c ∈ queue, UpReach ancestors q0 c) →
      bfsStep ancestors personId fuel queue visited = some true →
      UpReach ancestors q0 personId := by
  intro fuel
  induction fuel with
  | zero => intro queue visited _ h; rw [bfsStep] at h; cases h
  | succ n ih =>
      intro queue visited hq h
      cases queue with
      | nil => rw [bfsStep] at h; cases h
      | cons c rest =>
          rw [bfsStep] at h
          by_cases hvis : visited.contains c = true
          · rw [if_pos hvis] at h
            exact ih rest visited (fun x hx => hq x (List.mem_cons_of_mem c hx)) h
          · rw [if_neg (by simp_all)] at h
            by_cases hcp : (c == personId) = true
            · have : c = personId := eq_of_beq hcp
              exact this ▸ hq c (List.mem_cons_self c rest)
            · rw [if_neg (by simp_all)] at h
              apply ih _ _ ?_ h
              intro x hx
              rcases List.mem_append.mp hx with hx1 | hx2
              · exact hq x (List.mem_cons_of_mem c hx1)
              · cases hl : lookupLast ancestors c with
                | none => rw [hl] at hx2; simp at hx2
                | some p =>
                    rw [hl] at hx2
                    exact UpReach.push ancestors (hq c (List.mem_cons_self c rest))
                      ⟨p, hl, hx2⟩

/-- The completeness invariant: every visited id is not the subject and has
all its parent links already in the queue or visited. -/
def BfsInv (ancestors : List Ancestor) (personId : String)
    (queue visited : List String) : Prop :=
  ∀ v ∈ visited, v ≠ personId ∧
    ∀ y, parentStep ancestors v y → (y ∈ queue ∨ y ∈ visited)

/-- From a visited id that reaches the subject, some queue entry reaches the
subject. -/
theorem bfs_escape (ancestors : List Ancestor) (personId : String)
    (queue visited : List String)
    (hinv : BfsInv ancestors personId queue visited) :
    ∀ v t, UpReach ancestors v t → t = personId → v ∈ visited →
      ∃ c ∈ queue, UpReach ancestors c personId := by
  intro v t h
  induction h with
  | refl x =>
      intro ht hv
      exact absurd ht (hinv x hv).1
  | step hp _ ih =>
      intro ht hv
      rcases (hinv _ hv).2 _ hp with hyq | hyv
      · rename_i x y z hr
        exact ⟨y, hyq, ht ▸ hr⟩
      · exact ih ht hyv

/-- BFS completeness: when some queue entry reaches the subject and the
invariant holds, the loop can never answer `some false`. -/
theorem bfsStep_complete (ancestors : List Ancestor) (personId : String) :
    ∀ fuel queue visited, BfsInv ancestors personId queue visited →
      (∃ c ∈ queue, UpReach ancestors c personId) →
      bfsStep ancestors personId fuel queue visited ≠ some false := by
  intro fuel
  induction fuel with
  | zero => intro queue visited _ _ h; rw [bfsStep] at h; cases h
  | succ n ih =>
      intro queue visited hinv hgood h
      cases queue with
      | nil =>
          rcases hgood with ⟨c, hc, _⟩
          simp at hc
      | cons c rest =>
          rw [bfsStep] at h
          by_cases hvis : visited.contains c = true
          · rw [if_pos hvis] at h
            have hcv : c ∈ visited := List.mem_of_elem_eq_true hvis
            have hinv2 : BfsInv ancestors personId rest visited := by
              intro v hv
              refine ⟨(hinv v hv).1, fun y hy => ?_⟩
              rcases (hinv v hv).2 y hy with hyq | hyv
              · rcases List.mem_cons.mp hyq with rfl | hyr
                · exact Or.inr hcv
                · exact Or.inl hyr
              · exact Or.inr hyv
            have hgood2 : ∃ x ∈ rest, UpReach ancestors x personId := by
              rcases hgood with ⟨c0, hc0, hr0⟩
              rcases List.mem_cons.mp hc0 with rfl | hc0r
              · exact bfs_escape ancestors personId rest visited hinv2 c0
                  personId hr0 rfl hcv
              · exact ⟨c0, hc0r, hr0⟩
            exact ih rest visited hinv2 hgood2 h
          · have hvis2 : visited.contains c = false := by simpa using hvis
            rw [if_neg hvis] at h
            by_cases hcp : (c == personId) = true
            · rw [if_pos hcp] at h; cases h
            · rw [if_neg (by simp_all)] at h
              have hcne : c ≠ personId := fun he => by simp [he] at hcp
              set pushed := (match lookupLast ancestors c with
                | some p => parentsOf p
                | none => []) with hpushed
              have hinv2 : BfsInv ancestors personId (rest ++ pushed)
                  (c :: visited) := by
                intro v hv
                rcases List.mem_cons.mp hv with rfl | hvv
                · refine ⟨hcne, fun y hy => ?_⟩
                  rcases hy with ⟨a, hla, hya⟩
                  left
                  apply List.mem_append_right
                  rw [hpushed, hla]
                  exact hya
                · refine ⟨(hinv v hvv).1, fun y hy => ?_⟩
                  rcases (hinv v hvv).2 y hy with hyq | hyv
                  · rcases List.mem_cons.mp hyq with rfl | hyr
                    · exact Or.inr (List.mem_cons_self y visited)
                    · exact Or.inl (List.mem_append_left pushed hyr)
                  · exact Or.inr (List.mem_cons_of_mem c hyv)
              have hgood2 : ∃ x ∈ rest ++ pushed, UpReach ancestors x personId := by
                rcases hgood with ⟨c0, hc0, hr0⟩
                rcases List.mem_cons.mp hc0 with rfl | hc0r
                · cases hr0 with
                  | refl => exact absurd rfl hcne
                  | step hp hr =>
                      rcases hp with ⟨a, hla, hya⟩
                      rename_i y
                      refine ⟨y, ?_, hr⟩
                      apply List.mem_append_right
                      rw [hpushed, hla]
                      exact hya
                · exact ⟨c0, List.mem_append_left pushed hc0r, hr0⟩
              exact ih _ _ hinv2 hgood2 h

/-- **C9**: `hasCircularReference` terminates on every input, including
cyclic link graphs: the visited-set-guarded BFS halts within the `bfsFuel`
bound, so the fueled embedding never returns `none`. -/
theorem c9_guard_always_terminates (ancestors : List Ancestor)
    (personId : String) (proposedParentId : Option String) :
    hasCircularReferenceF ancestors personId proposedParentId ≠ none := by
  cases proposedParentId with
  | none => rw [hasCircularReferenceF]; simp
  | some q =>
      rw [hasCircularReferenceF]
      by_cases hq : (q == "") = true
      · rw [if_pos hq]; simp
      · rw [if_neg hq]
        by_cases hpq : (personId == q) = true
        · rw [if_pos hpq]; simp
        · rw [if_neg hpq]
          apply bfsStep_no_none ancestors personId q
          · intro x hx
            simp only [List.mem_singleton] at hx
            subst hx
            exact List.mem_cons_self x _
          · have hd : ((bfsCandidates ancestors q).dedup.filter
                (fun x => !([] : List String).contains x)).length
                ≤ 2 * ancestors.length + 1 := by
              have h1 : ((bfsCandidates ancestors q).dedup.filter
                  (fun x => !([] : List String).contains x)).length
                  ≤ (bfsCandidates ancestors q).dedup.length :=
                List.length_filter_le _ _
              have h2 : (bfsCandidates ancestors q).dedup.length
                  ≤ (bfsCandidates ancestors q).length :=
                (List.dedup_sublist _).length_le
              have h3 : (bfsCandidates ancestors q).length
                  = (parentIds ancestors).length + 1 := by
                simp [bfsCandidates]
              have h4 := parentIds_length_le ancestors
              omega
            unfold bfsMeasure bfsFuel
            simp only [List.length_singleton]
            omega

/-- **C2** (amended: for a non-empty proposed-parent id, since the guard's
`!proposedParentId` check treats the empty string like `null`): for ids `P`,
`Q` of the list, `hasCircularReference(list, P, Q)` returns `true` exactly
when `Q` is a descendant of `P` through father/mother links — that is, when
`P` is reachable upward from `Q` (including `Q = P`) — and `false`
otherwise. -/
theorem c2_cycle_guard (ancestors : List Ancestor) (p q : String)
    (hp : p ∈ ancestors.map (fun a => a.id))
    (hq : q ∈ ancestors.map (fun a => a.id)) (hqne : q ≠ "") :
    hasCircularReference ancestors p (some q) = true ↔ UpReach ancestors q p := by
  rw [hasCircularReference, hasCircularReferenceF]
  have hqemp : (q == "") = false := by simp [hqne]
  rw [hqemp]
  simp only [Bool.false_eq_true, if_false]
  by_cases hpq : (p == q) = true
  · rw [if_pos hpq]
    simp only [Option.getD_some, true_iff]
    have heq : p = q := eq_of_beq hpq
    subst heq
    exact UpReach.refl p
  · rw [if_neg hpq]
    have hterm := c9_guard_always_terminates ancestors p (some q)
    rw [hasCircularReferenceF, hqemp] at hterm
    simp only [Bool.false_eq_true, if_false] at hterm
    rw [if_neg hpq] at hterm
    cases hres : bfsStep ancestors p (bfsFuel ancestors) [q] [] with
    | none => exact absurd hres hterm
    | some b =>
        cases b with
        | true =>
            simp only [hres, Option.getD_some, true_iff]
            apply bfsStep_sound ancestors p q (bfsFuel ancestors) [q] [] ?_ hres
            intro c hc
            simp only [List.mem_singleton] at hc
            subst hc
            exact UpReach.refl c
        | false =>
            simp only [hres, Option.getD_some, Bool.false_eq_true, false_iff]
            intro hreach
            exact bfsStep_complete ancestors p (bfsFuel ancestors) [q] []
              (fun v hv => by simp at hv)
              ⟨q, List.mem_singleton.mpr rfl, hreach⟩ hres

/-- Person with the empty id (C2 counterexample fixture). -/
def c2E : Ancestor :=
  { id := "", name := "E", birthYear := none, deathYear := none,
    gender := Gender.Unknown, country := none, fatherId := none,
    motherId := none, notes := "", dateAdded := 0 }

/-- **C2 counterexample** (to the claim as stated): both `P` and `Q` are the
id `""` of a listed person, so `Q` is a descendant of `P` (the case
`Q = P`), yet the guard returns `false`, because `!proposedParentId` treats
the empty string as missing. -/
theorem c2_counterexample :
    "" ∈ [c2E].map (fun a => a.id) ∧ UpReach [c2E] "" "" ∧
      hasCircularReference [c2E] "" (some "") = false :=
  ⟨by decide, UpReach.refl "", rfl⟩

/-- Child whose father reference points at `c2R` (C2 witness fixture). -/
def c2C : Ancestor :=
  { id := "c", name := "C", birthYear := none, deathYear := none,
    gender := Gender.Unknown, country := none, fatherId := some "r",
    motherId := none, notes := "", dateAdded := 0 }

def c2R : Ancestor :=
  { id := "r", name := "R", birthYear := none, deathYear := none,
    gender := Gender.Male, country := none, fatherId := none,
    motherId := none, notes := "", dateAdded := 0 }

/-- **C2 witness**: on the concrete two-person list the guard answers `true`
for subject `r` and proposed parent `c`, and indeed `r` is upward-reachable
from `c`. -/
theorem c2_witness : UpReach [c2C, c2R] "c" "r" :=
  (c2_cycle_guard [c2C, c2R] "r" "c" (by decide) (by decide) (by decide)).mp
    (by decide)

/-! ### C4: relationship classifier symmetry -/

theorem lookupLast_mem {l : List Ancestor} {x : String} {a : Ancestor}
    (h : lookupLast l x = some a) : a ∈ l :=
  List.mem_reverse.mp (List.mem_of_find?_eq_some h)

theorem lookupLast_id {l : List Ancestor} {x : String} {a : Ancestor}
    (h : lookupLast l x = some a) : a.id = x := by
  have := List.find?_some h
  simpa using this

/-- A pushed parent id really is a parent reference of the record. -/
theorem link_of_mem_parentsOf {a : Ancestor} {y : String} (h : y ∈ parentsOf a) :
    a.fatherId = some y ∨ a.motherId = some y := by
  rw [parentsOf] at h
  rcases List.mem_append.mp h with h1 | h1
  · left
    cases hf : a.fatherId with
    | none => rw [hf] at h1; simp at h1
    | some s =>
        rw [hf] at h1
        by_cases hs : s.isEmpty
        · simp [hs] at h1
        · simp [hs] at h1
          rw [h1]
  · right
    cases hm : a.motherId with
    | none => rw [hm] at h1; simp at h1
    | some s =>
        rw [hm] at h1
        by_cases hs : s.isEmpty
        · simp [hs] at h1
        · simp [hs] at h1
          rw [h1]

/-- Whether a recursive-call result counts as a sibling hit
(`.includes("Sibling")`, with a missing result meaning fuel exhaustion). -/
def sibTest : Option String → Bool
  | some r => strIncludes r "Sibling"
  | none => false

/-- When every recursive call in one row answers, the inner cousin loop is
the `any` of the sibling tests. -/
theorem rowScan_eq (f : String → String → Option String) (pA : String)
    (pbs : List String) (h : ∀ y ∈ pbs, ∃ r, f pA y = some r) :
    rowScan f pA pbs = some (pbs.any (fun y => sibTest (f pA y))) := by
  induction pbs with
  | nil => rfl
  | cons y rest ih =>
      rcases h y (List.mem_cons_self y rest) with ⟨r, hr⟩
      rw [rowScan]
      simp only [hr]
      by_cases hs : strIncludes r "Sibling" = true
      · rw [if_pos hs]
        simp [List.any_cons, sibTest, hr, hs]
      · rw [if_neg hs]
        rw [ih (fun z hz => h z (List.mem_cons_of_mem y hz))]
        have hs2 : strIncludes r "Sibling" = false := by simpa using hs
        simp [List.any_cons, sibTest, hr, hs2]

/-- When every recursive call answers, the cousin double loop is the
`any`-of-`any` of the sibling tests. -/
theorem pairScan_eq (f : String → String → Option String)
    (pas pbs : List String) (h : ∀ x ∈ pas, ∀ y ∈ pbs, ∃ r, f x y = some r) :
    pairScan f pas pbs
      = some (pas.any (fun x => pbs.any (fun y => sibTest (f x y)))) := by
  induction pas with
  | nil => rfl
  | cons x rest ih =>
      rw [pairScan, rowScan_eq f x pbs (h x (List.mem_cons_self x rest))]
      by_cases hx : pbs.any (fun y => sibTest (f x y)) = true
      · rw [hx]
        simp [List.any_cons, hx]
      · have hx2 : pbs.any (fun y => sibTest (f x y)) = false := by simpa using hx
        rw [hx2, ih (fun z hz => h z (List.mem_cons_of_mem x hz))]
        simp [List.any_cons, hx2]

/-- Transposing the cousin double loop when the two orientations agree on
sibling-ness pointwise. -/
theorem anyany_swap (pas pbs : List String)
    (f g : String → String → Option String)
    (h : ∀ x ∈ pas, ∀ y ∈ pbs, sibTest (f x y) = sibTest (g y x)) :
    pas.any (fun x => pbs.any (fun y => sibTest (f x y)))
      = pbs.any (fun y => pas.any (fun x => sibTest (g y x))) := by
  rw [Bool.eq_iff_iff]
  simp only [List.any_eq_true]
  constructor
  · rintro ⟨x, hx, y, hy, hs⟩
    exact ⟨y, hy, x, hx, (h x hx y hy) ▸ hs⟩
  · rintro ⟨y, hy, x, hx, hs⟩
    exact ⟨x, hx, y, hy, (h x hx y hy).symm ▸ hs⟩

/-- The direction swap does not affect the `"Sibling"` substring test. -/
theorem strIncludes_swapRel (r : String) :
    strIncludes (swapRel r) "Sibling" = strIncludes r "Sibling" := by
  by_cases h1 : r = "Child of selected"
  · subst h1; decide
  by_cases h2 : r = "Parent of selected"
  · subst h2; decide
  by_cases h3 : r = "Grandchild of selected"
  · subst h3; decide
  by_cases h4 : r = "Grandparent of selected"
  · subst h4; decide
  have : swapRel r = r := by
    rw [swapRel, if_neg (by simp [h1]), if_neg (by simp [h2]),
      if_neg (by simp [h3]), if_neg (by simp [h4])]
  rw [this]

/-- The shared-parent test is orientation-independent. -/
theorem share_comm (x y : Option String) :
    (strTruthy x && (x == y)) = (strTruthy y && (y == x)) := by
  by_cases h : x = y
  · subst h; rfl
  · rw [beq_eq_false_iff_ne.mpr h, beq_eq_false_iff_ne.mpr (Ne.symm h)]
    simp

/-- The recursion measure of the classifier at an id: how many records rank
strictly below it (zero for an id with no record). -/
def relMeasure (l : List Ancestor) (rank : String → Nat) (x : String) : Nat :=
  match lookupLast l x with
  | none => 0
  | some _ => (l.filter (fun a => decide (rank a.id < rank x))).length + 1

theorem relMeasure_le (l : List Ancestor) (rank : String → Nat) (x : String) :
    relMeasure l rank x ≤ l.length + 1 := by
  rw [relMeasure]
  cases lookupLast l x with
  | none =>
      show (0 : Nat) ≤ l.length + 1
      omega
  | some a =>
      show (l.filter (fun a => decide (rank a.id < rank x))).length + 1 ≤ l.length + 1
      have := List.length_filter_le (fun a => decide (rank a.id < rank x)) l
      omega

/-- A truthy parent/child beq condition between two looked-up records forces
a rank drop (acyclicity). -/
theorem rank_lt_of_cond (l : List Ancestor) (rank : String → Nat)
    (hrank : ∀ c ∈ l, ∀ p ∈ l,
      (c.fatherId = some p.id ∨ c.motherId = some p.id) → rank p.id < rank c.id)
    {x y : String} {px py : Ancestor}
    (hx : lookupLast l x = some px) (hy : lookupLast l y = some py)
    (hcond : (px.fatherId == some y || px.motherId == some y) = true) :
    rank y < rank x := by
  have hxm := lookupLast_mem hx
  have hym := lookupLast_mem hy
  have hxid := lookupLast_id hx
  have hyid := lookupLast_id hy
  have hlink : px.fatherId = some py.id ∨ px.motherId = some py.id := by
    rw [hyid]
    rcases Bool.or_eq_true_iff.mp hcond with h | h
    · exact Or.inl (eq_of_beq h)
    · exact Or.inr (eq_of_beq h)
  have := hrank px hxm py hym hlink
  rwa [hxid, hyid] at this

/-- A parent id of a looked-up record sits strictly below it in the
measure. -/
theorem relMeasure_parent_lt (l : List Ancestor) (rank : String → Nat)
    (hrank : ∀ c ∈ l, ∀ p ∈ l,
      (c.fatherId = some p.id ∨ c.motherId = some p.id) → rank p.id < rank c.id)
    {x : String} {px : Ancestor} (hx : lookupLast l x = some px)
    {y : String} (hy : y ∈ parentsOf px) :
    relMeasure l rank y < relMeasure l rank x := by
  have hmx : relMeasure l rank x
      = (l.filter (fun a => decide (rank a.id < rank x))).length + 1 := by
    rw [relMeasure, hx]
  cases hly : lookupLast l y with
  | none =>
      have : relMeasure l rank y = 0 := by rw [relMeasure, hly]
      omega
  | some py =>
      have hmy : relMeasure l rank y
          = (l.filter (fun a => decide (rank a.id < rank y))).length + 1 := by
        rw [relMeasure, hly]
      have hcond : (px.fatherId == some y || px.motherId == some y) = true := by
        rcases link_of_mem_parentsOf hy with h | h
        · exact Bool.or_eq_true_iff.mpr (Or.inl (beq_iff_eq.mpr h))
        · exact Bool.or_eq_true_iff.mpr (Or.inr (beq_iff_eq.mpr h))
      have hlt : rank y < rank x := rank_lt_of_cond l rank hrank hx hly hcond
      have hpym := lookupLast_mem hly
      have hpyid := lookupLast_id hly
      have hstrict :
          (l.filter (fun a => decide (rank a.id < rank y))).length <
          (l.filter (fun a => decide (rank a.id < rank x))).length := by
        apply filter_length_lt_of_imp l ?_ py hpym ?_ ?_
        · intro a _ hqa
          simp only [decide_eq_true_eq] at hqa ⊢
          omega
        · simp only [decide_eq_true_eq, hpyid]
          omega
        · simp only [decide_eq_true_eq, hpyid]
          simp
      omega

/-- A positive grandparent scan between two looked-up records forces a
two-step rank drop (acyclicity). -/
theorem grandScan_rank_lt (l : List Ancestor) (rank : String → Nat)
    (hrank : ∀ c ∈ l, ∀ p ∈ l,
      (c.fatherId = some p.id ∨ c.motherId = some p.id) → rank p.id < rank c.id)
    {x t : String} {px pt : Ancestor}
    (hx : lookupLast l x = some px) (ht : lookupLast l t = some pt)
    (hg : grandScan l (parentsOf px) t = true) : rank t < rank x := by
  rw [grandScan, List.any_eq_true] at hg
  rcases hg with ⟨pid, hpid, hcond⟩
  cases hl : lookupLast l pid with
  | none => rw [hl] at hcond; cases hcond
  | some pn =>
      rw [hl] at hcond
      have h1 : rank t < rank pid := rank_lt_of_cond l rank hrank hl ht hcond
      have h2 : rank pid < rank x := by
        apply rank_lt_of_cond l rank hrank hx hl
        rcases link_of_mem_parentsOf hpid with h | h
        · exact Bool.or_eq_true_iff.mpr (Or.inl (beq_iff_eq.mpr h))
        · exact Bool.or_eq_true_iff.mpr (Or.inr (beq_iff_eq.mpr h))
      omega

/-- Core of the symmetry argument: one unfolding of the classifier body, for
two distinct ids that both resolve to records, assuming the inductive
hypothesis for recursive calls below the measure bound. -/
theorem relBody_symm_core (l : List Ancestor) (rank : String → Nat)
    (hrank : ∀ c ∈ l, ∀ p ∈ l,
      (c.fatherId = some p.id ∨ c.motherId = some p.id) → rank p.id < rank c.id)
    (n : Nat) (aId bId : String) (pa pb : Ancestor)
    (hla : lookupLast l aId = some pa) (hlb : lookupLast l bId = some pb)
    (hne : aId ≠ bId)
    (hih : ∀ x y, relMeasure l rank x < n → relMeasure l rank y < n →
      ∃ r, calculateRelationshipF l n x y = some r ∧
        calculateRelationshipF l n y x = some (swapRel r))
    (han : relMeasure l rank aId ≤ n) (hbn : relMeasure l rank bId ≤ n) :
    ∃ r, relBody l (calculateRelationshipF l n) aId bId = some r ∧
      relBody l (calculateRelationshipF l n) bId aId = some (swapRel r) := by
  have hab : (aId == bId) = false := beq_eq_false_iff_ne.mpr hne
  have hba : (bId == aId) = false := beq_eq_false_iff_ne.mpr (Ne.symm hne)
  by_cases hfAB : (pa.fatherId == some bId || pa.motherId == some bId) = true
  · by_cases hfBA : (pb.fatherId == some aId || pb.motherId == some aId) = true
    · have h1 := rank_lt_of_cond l rank hrank hla hlb hfAB
      have h2 := rank_lt_of_cond l rank hrank hlb hla hfBA
      omega
    · refine ⟨"Child of selected", ?_, ?_⟩
      · simp only [relBody, hab, Bool.false_eq_true, if_false, hla, hlb]
        rw [if_pos hfAB]
      · simp only [relBody, hba, Bool.false_eq_true, if_false, hla, hlb]
        rw [if_neg hfBA, if_pos hfAB]
        rfl
  · by_cases hfBA : (pb.fatherId == some aId || pb.motherId == some aId) = true
    · refine ⟨"Parent of selected", ?_, ?_⟩
      · simp only [relBody, hab, Bool.false_eq_true, if_false, hla, hlb]
        rw [if_neg hfAB, if_pos hfBA]
      · simp only [relBody, hba, Bool.false_eq_true, if_false, hla, hlb]
        rw [if_pos hfBA]
        rfl
    · -- no direct parent/child either way; sibling stage
      have hsf : (strTruthy pb.fatherId && (pb.fatherId == pa.fatherId))
          = (strTruthy pa.fatherId && (pa.fatherId == pb.fatherId)) :=
        (share_comm _ _).symm
      have hsm : (strTruthy pb.motherId && (pb.motherId == pa.motherId))
          = (strTruthy pa.motherId && (pa.motherId == pb.motherId)) :=
        (share_comm _ _).symm
      by_cases hfull : ((strTruthy pa.fatherId && (pa.fatherId == pb.fatherId))
          && (strTruthy pa.motherId && (pa.motherId == pb.motherId))) = true
      · refine ⟨"Full Sibling", ?_, ?_⟩
        · simp only [relBody, hab, Bool.false_eq_true, if_false, hla, hlb]
          rw [if_neg hfAB, if_neg hfBA, if_pos hfull]
        · simp only [relBody, hba, Bool.false_eq_true, if_false, hla, hlb]
          rw [if_neg hfBA, if_neg hfAB, hsf, hsm, if_pos hfull]
          rfl
      · by_cases hhalf : ((strTruthy pa.fatherId && (pa.fatherId == pb.fatherId))
            || (strTruthy pa.motherId && (pa.motherId == pb.motherId))) = true
        · refine ⟨"Half Sibling", ?_, ?_⟩
          · simp only [relBody, hab, Bool.false_eq_true, if_false, hla, hlb]
            rw [if_neg hfAB, if_neg hfBA, if_neg hfull, if_pos hhalf]
          · simp only [relBody, hba, Bool.false_eq_true, if_false, hla, hlb]
            rw [if_neg hfBA, if_neg hfAB, hsf, hsm, if_neg hfull, if_pos hhalf]
            rfl
        · -- cousin stage
          have hmx : ∀ x ∈ parentsOf pa, relMeasure l rank x < n := by
            intro x hx
            have := relMeasure_parent_lt l rank hrank hla hx
            omega
          have hmy : ∀ y ∈ parentsOf pb, relMeasure l rank y < n := by
            intro y hy
            have := relMeasure_parent_lt l rank hrank hlb hy
            omega
          have htotAB : ∀ x ∈ parentsOf pa, ∀ y ∈ parentsOf pb,
              ∃ r, calculateRelationshipF l n x y = some r := by
            intro x hx y hy
            rcases hih x y (hmx x hx) (hmy y hy) with ⟨r, h1, _⟩
            exact ⟨r, h1⟩
          have htotBA : ∀ y ∈ parentsOf pb, ∀ x ∈ parentsOf pa,
              ∃ r, calculateRelationshipF l n y x = some r := by
            intro y hy x hx
            rcases hih x y (hmx x hx) (hmy y hy) with ⟨r, _, h2⟩
            exact ⟨swapRel r, h2⟩
          have hpoint : ∀ x ∈ parentsOf pa, ∀ y ∈ parentsOf pb,
              sibTest (calculateRelationshipF l n x y)
                = sibTest (calculateRelationshipF l n y x) := by
            intro x hx y hy
            rcases hih x y (hmx x hx) (hmy y hy) with ⟨r, h1, h2⟩
            rw [h1, h2]
            show strIncludes r "Sibling" = strIncludes (swapRel r) "Sibling"
            exact (strIncludes_swapRel r).symm
          have hpsAB : pairScan (calculateRelationshipF l n)
              (parentsOf pa) (parentsOf pb)
              = some ((parentsOf pa).any (fun x => (parentsOf pb).any
                  (fun y => sibTest (calculateRelationshipF l n x y)))) :=
            pairScan_eq _ _ _ htotAB
          have hpsBA : pairScan (calculateRelationshipF l n)
              (parentsOf pb) (parentsOf pa)
              = some ((parentsOf pa).any (fun x => (parentsOf pb).any
                  (fun y => sibTest (calculateRelationshipF l n x y)))) := by
            rw [pairScan_eq _ _ _ htotBA]
            congr 1
            exact (anyany_swap (parentsOf pa) (parentsOf pb) _ _ hpoint).symm
          cases hS : (parentsOf pa).any (fun x => (parentsOf pb).any
              (fun y => sibTest (calculateRelationshipF l n x y))) with
          | true =>
              refine ⟨"First Cousin", ?_, ?_⟩
              · simp only [relBody, hab, Bool.false_eq_true, if_false, hla, hlb]
                rw [if_neg hfAB, if_neg hfBA, if_neg hfull, if_neg hhalf]
                simp only [hpsAB, hS]
              · simp only [relBody, hba, Bool.false_eq_true, if_false, hla, hlb]
                rw [if_neg hfBA, if_neg hfAB, hsf, hsm, if_neg hfull, if_neg hhalf]
                simp only [hpsBA, hS]
                rfl
          | false =>
              have hcontA : ((parentsOf pa).contains bId) = false := by
                by_contra hcon
                have hmem : bId ∈ parentsOf pa :=
                  List.mem_of_elem_eq_true (by simpa using hcon)
                apply hfAB
                rcases link_of_mem_parentsOf hmem with h | h
                · exact Bool.or_eq_true_iff.mpr (Or.inl (beq_iff_eq.mpr h))
                · exact Bool.or_eq_true_iff.mpr (Or.inr (beq_iff_eq.mpr h))
              have hcontB : ((parentsOf pb).contains aId) = false := by
                by_contra hcon
                have hmem : aId ∈ parentsOf pb :=
                  List.mem_of_elem_eq_true (by simpa using hcon)
                apply hfBA
                rcases link_of_mem_parentsOf hmem with h | h
                · exact Bool.or_eq_true_iff.mpr (Or.inl (beq_iff_eq.mpr h))
                · exact Bool.or_eq_true_iff.mpr (Or.inr (beq_iff_eq.mpr h))
              by_cases hgAB : grandScan l (parentsOf pa) bId = true
              · by_cases hgBA : grandScan l (parentsOf pb) aId = true
                · have h1 := grandScan_rank_lt l rank hrank hla hlb hgAB
                  have h2 := grandScan_rank_lt l rank hrank hlb hla hgBA
                  omega
                · refine ⟨"Grandchild of selected", ?_, ?_⟩
                  · simp only [relBody, hab, Bool.false_eq_true, if_false, hla, hlb]
                    rw [if_neg hfAB, if_neg hfBA, if_neg hfull, if_neg hhalf]
                    simp only [hpsAB, hS]
                    rw [if_neg (fun hcc => Bool.false_ne_true (hcontA ▸ hcc)), if_pos hgAB]
                  · simp only [relBody, hba, Bool.false_eq_true, if_false, hla, hlb]
                    rw [if_neg hfBA, if_neg hfAB, hsf, hsm, if_neg hfull, if_neg hhalf]
                    simp only [hpsBA, hS]
                    rw [if_neg (fun hcc => Bool.false_ne_true (hcontB ▸ hcc)), if_neg hgBA, if_pos hgAB]
                    rfl
              · by_cases hgBA : grandScan l (parentsOf pb) aId = true
                · refine ⟨"Grandparent of selected", ?_, ?_⟩
                  · simp only [relBody, hab, Bool.false_eq_true, if_false, hla, hlb]
                    rw [if_neg hfAB, if_neg hfBA, if_neg hfull, if_neg hhalf]
                    simp only [hpsAB, hS]
                    rw [if_neg (fun hcc => Bool.false_ne_true (hcontA ▸ hcc)), if_neg hgAB, if_pos hgBA]
                  · simp only [relBody, hba, Bool.false_eq_true, if_false, hla, hlb]
                    rw [if_neg hfBA, if_neg hfAB, hsf, hsm, if_neg hfull, if_neg hhalf]
                    simp only [hpsBA, hS]
                    rw [if_neg (fun hcc => Bool.false_ne_true (hcontB ▸ hcc)), if_pos hgBA]
                    rfl
                · refine ⟨"Distant Relative or No Relation Found (Basic Search)",
                    ?_, ?_⟩
                  · simp only [relBody, hab, Bool.false_eq_true, if_false, hla, hlb]
                    rw [if_neg hfAB, if_neg hfBA, if_neg hfull, if_neg hhalf]
                    simp only [hpsAB, hS]
                    rw [if_neg (fun hcc => Bool.false_ne_true (hcontA ▸ hcc)), if_neg hgAB, if_neg hgBA]
                  · simp only [relBody, hba, Bool.false_eq_true, if_false, hla, hlb]
                    rw [if_neg hfBA, if_neg hfAB, hsf, hsm, if_neg hfull, if_neg hhalf]
                    simp only [hpsBA, hS]
                    rw [if_neg (fun hcc => Bool.false_ne_true (hcontB ▸ hcc)), if_neg hgBA, if_neg hgAB]
                    rfl

/-- With acyclic links (via a rank) and fuel above both measures, the
classifier answers on both orientations and the answers are direction
swaps of each other. -/
theorem relF_symm (l : List Ancestor) (rank : String → Nat)
    (hrank : ∀ c ∈ l, ∀ p ∈ l,
      (c.fatherId = some p.id ∨ c.motherId = some p.id) → rank p.id < rank c.id) :
    ∀ fuel aId bId, relMeasure l rank aId < fuel → relMeasure l rank bId < fuel →
      ∃ r, calculateRelationshipF l fuel aId bId = some r ∧
        calculateRelationshipF l fuel bId aId = some (swapRel r) := by
  intro fuel
  induction fuel with
  | zero => intro aId bId ha hb; omega
  | succ n ih =>
      intro aId bId ha hb
      simp only [calculateRelationshipF]
      by_cases hab : (aId == bId) = true
      · have heq := eq_of_beq hab
        subst heq
        have hswapS : swapRel "Self" = "Self" := by decide
        refine ⟨"Self", ?_, ?_⟩
        · rw [relBody, if_pos (beq_self_eq_true aId)]
        · rw [relBody, if_pos (beq_self_eq_true aId), hswapS]
      · have habf : (aId == bId) = false := by simpa using hab
        have hbaf : (bId == aId) = false :=
          beq_eq_false_iff_ne.mpr (Ne.symm (ne_of_beq_false habf))
        have hswapU : swapRel "Unknown" = "Unknown" := by decide
        cases hla : lookupLast l aId with
        | none =>
            refine ⟨"Unknown", ?_, ?_⟩
            · simp only [relBody, habf, Bool.false_eq_true, if_false, hla]
            · simp only [relBody, hbaf, Bool.false_eq_true, if_false, hla, hswapU]
              cases lookupLast l bId <;> rfl
        | some pa =>
            cases hlb : lookupLast l bId with
            | none =>
                refine ⟨"Unknown", ?_, ?_⟩
                · simp only [relBody, habf, Bool.false_eq_true, if_false, hla, hlb]
                · simp only [relBody, hbaf, Bool.false_eq_true, if_false, hla, hlb,
                    hswapU]
            | some pb =>
                exact relBody_symm_core l rank hrank n aId bId pa pb hla hlb
                  (ne_of_beq_false habf) (fun x y hx hy => ih x y hx hy)
                  (by omega) (by omega)

/-- **C4** (amended: for lists whose father/mother links are acyclic, since
on cyclic data the priority order breaks the swap — see
`c4_counterexample`): for ids `A`, `B` present in the list, the classifier
is symmetric: `calculateRelationship(list, B, A)` is
`calculateRelationship(list, A, B)` with `Child of selected` ↔
`Parent of selected` and `Grandchild of selected` ↔
`Grandparent of selected` swapped and every other label unchanged. Fuel
`length + 2` strictly dominates the classifier's recursion depth, so both
runs answer. -/
theorem c4_relationship_symmetric (l : List Ancestor) (h : IsAcyclic l)
    (aId bId : String) (ha : aId ∈ l.map (fun a => a.id))
    (hb : bId ∈ l.map (fun a => a.id)) (r : String)
    (hab : calculateRelationshipF l (l.length + 2) aId bId = some r) :
    calculateRelationshipF l (l.length + 2) bId aId = some (swapRel r) := by
  rcases h with ⟨rank, hrank⟩
  have hma : relMeasure l rank aId < l.length + 2 := by
    have := relMeasure_le l rank aId
    omega
  have hmb : relMeasure l rank bId < l.length + 2 := by
    have := relMeasure_le l rank bId
    omega
  rcases relF_symm l rank hrank (l.length + 2) aId bId hma hmb with ⟨r2, h1, h2⟩
  rw [hab] at h1
  cases h1
  exact h2

/-- Mutual fathers: `c4A` lists `c4B` as father and vice versa (a 2-cycle,
C4 counterexample fixture). -/
def c4A : Ancestor :=
  { id := "a", name := "A", birthYear := none, deathYear := none,
    gender := Gender.Male, country := none, fatherId := some "b",
    motherId := none, notes := "", dateAdded := 0 }

def c4B : Ancestor :=
  { id := "b", name := "B", birthYear := none, deathYear := none,
    gender := Gender.Male, country := none, fatherId := some "a",
    motherId := none, notes := "", dateAdded := 0 }

/-- **C4 counterexample** (to the claim as stated, which quantifies over
every person list): with mutual father links, both orientations return
`Child of selected` — the direct-parent check fires first in both calls —
so the directional labels are NOT swapped. -/
theorem c4_counterexample :
    calculateRelationshipF [c4A, c4B] ([c4A, c4B].length + 2) "a" "b"
        = some "Child of selected" ∧
      calculateRelationshipF [c4A, c4B] ([c4A, c4B].length + 2) "b" "a"
        = some "Child of selected" ∧
      swapRel "Child of selected" ≠ "Child of selected" :=
  ⟨rfl, rfl, by decide⟩

/-- Lone person for the C4 witness. -/
def c4W : Ancestor :=
  { id := "p", name := "P", birthYear := none, deathYear := none,
    gender := Gender.Unknown, country := none, fatherId := none,
    motherId := none, notes := "", dateAdded := 0 }

/-- **C4 witness**: the amended symmetry theorem applied at the concrete
acyclic one-person list (identity case). -/
theorem c4_witness :
    calculateRelationshipF [c4W] 3 "p" "p" = some (swapRel "Self") :=
  c4_relationship_symmetric [c4W] ⟨fun _ => 0, by decide⟩ "p" "p"
    (by decide) (by decide) "Self" rfl

end AnestoryAI
